import Mathlib

/-! # gotwi: OAuth 1.0a request signing and endpoint resolution

A shallow embedding of `oauth1.go` and `spaces/types/spaces_lookup_parameter.go`,
with the response and parameter types that are known from their tests only.

Go strings are byte sequences, so a string is a list of bytes.  A Go
`map[string]string` is given by its entries in the order in which a `range`
loop visits them (keys pairwise distinct); results that do not depend on that
order are proved for every permutation.  The parts of the Go standard library
the code calls (`net/url`, `encoding/base64`, `crypto/sha1`, `crypto/hmac`,
`strings`) are embedded from their documented behaviour.  The random source,
the clock, the outcome of the hash write and Unicode upper-casing are inputs.
-/

namespace Gotwi

/-! ## Strings -/

abbrev Byte := Fin 256

abbrev Str := List Byte

/-- The bytes (UTF-8) of a string literal. -/
def str (x : String) : Str :=
  x.toList.flatMap fun c => (String.utf8EncodeChar c).map fun b => b.val

/-- The byte with value `n` modulo 256. -/
def byteOf (n : Nat) : Byte := ⟨n % 256, Nat.mod_lt _ (by decide)⟩

def bAmp : Byte := 38      -- '&'
def bEq : Byte := 61       -- '='
def bPlus : Byte := 43     -- '+'
def bSlash : Byte := 47    -- '/'
def bPercent : Byte := 37  -- '%'
def bSpace : Byte := 32    -- ' '
def bQuestion : Byte := 63 -- '?'

/-- An `error` value. -/
structure Error where
  msg : String
  deriving DecidableEq, Repr

/-! ## `strings` -/

/-- The search of `strings.Index` from position `i` on: the first position at
which `substr` starts, or `-1`. -/
def stringsIndexGo (substr : Str) : Str → Nat → Int
  | [], i => if substr.isPrefixOf [] then (i : Int) else -1
  | c :: cs, i => if substr.isPrefixOf (c :: cs) then (i : Int) else stringsIndexGo substr cs (i + 1)

/-- Go `strings.Index(s, substr)`: the index of the first instance of `substr`
in `s`, or `-1`. -/
def stringsIndex (s substr : Str) : Int := stringsIndexGo substr s 0

/-- Go `strings.Replace(s, old, new, n)` for a non-empty `old`: the first `n`
non-overlapping instances of `old` replaced by `new`, all of them when `n < 0`.
`skip` counts the bytes of a replaced instance still to be dropped. -/
def stringsReplaceGo (old new : Str) : Nat → Nat → Str → Str
  | _, _, [] => []
  | skip + 1, n, _ :: cs => stringsReplaceGo old new skip n cs
  | 0, 0, c :: cs => c :: cs
  | 0, n + 1, c :: cs =>
    if old.isPrefixOf (c :: cs) then new ++ stringsReplaceGo old new (old.length - 1) n cs
    else c :: stringsReplaceGo old new 0 (n + 1) cs

/-- Go `strings.Replace(s, old, new, n)`.  For an empty `old` Go matches between
UTF-8 sequences; no caller in this package passes an empty `old`, and the
embedding returns `s` there. -/
def stringsReplace (s old new : Str) (n : Int) : Str :=
  if old = new ∨ n = 0 ∨ old = [] then s
  else stringsReplaceGo old new 0 (if n < 0 then s.length else n.toNat) s

/-- The ASCII fast path of `strings.ToUpper`: `a`..`z` become `A`..`Z`. -/
def asciiUpper (c : Byte) : Byte :=
  if 97 ≤ c.val ∧ c.val ≤ 122 then byteOf (c.val - 32) else c

/-- Go `strings.ToUpper`.  On a string of ASCII bytes it maps `a`..`z` to
`A`..`Z`; otherwise it maps every rune through the Unicode tables, which is the
input `uni`. -/
def stringsToUpper (uni : Str → Str) (s : Str) : Str :=
  if s.all (fun c => c.val < 128) then s.map asciiUpper else uni s

/-- Go `strings.Join(elems, sep)`. -/
def stringsJoin (elems : List Str) (sep : Str) : Str :=
  match elems with
  | [] => []
  | [e] => e
  | e :: es => e ++ sep ++ stringsJoin es sep

/-! ## `net/url` -/

/-- Go `url.shouldEscape(c, encodeQueryComponent)`: everything but the
unreserved characters (alphanumerics and `-`, `_`, `.`, `~`) is escaped. -/
def shouldEscape (c : Byte) : Bool :=
  if (97 ≤ c.val ∧ c.val ≤ 122) ∨ (65 ≤ c.val ∧ c.val ≤ 90) ∨ (48 ≤ c.val ∧ c.val ≤ 57) then false
  else if c.val = 45 ∨ c.val = 95 ∨ c.val = 46 ∨ c.val = 126 then false
  else true

/-- The digit `upperhex[n]` of `"0123456789ABCDEF"`. -/
def upperhex (n : Nat) : Byte :=
  if n < 10 then byteOf (48 + n) else byteOf (55 + n)

/-- What `url.QueryEscape` writes for one byte: `+` for a space, `%XX` for a
byte that must be escaped, the byte itself otherwise. -/
def escapeByte (c : Byte) : Str :=
  if c = bSpace then [bPlus]
  else if shouldEscape c then [bPercent, upperhex (c.val / 16), upperhex (c.val % 16)]
  else [c]

/-- Go `url.QueryEscape`. -/
def queryEscape (s : Str) : Str := s.flatMap escapeByte

/-- Go `url.Values`, a `map[string][]string`: the keys in insertion order, each
with its values in the order they were added. -/
abbrev Values := List (Str × List Str)

/-- Go `Values.Add(key, value)`: appends `value` to the values of `key`. -/
def Values.Add : Values → Str → Str → Values
  | [], k, v => [(k, [v])]
  | (k', vs) :: rest, k, v =>
    if k' = k then (k', vs ++ [v]) :: rest else (k', vs) :: Values.Add rest k v

/-- The values stored under `k` (Go `v[k]`). -/
def Values.get (v : Values) (k : Str) : List Str := (v.lookup k).getD []

/-- One step of the inner loop of `Values.Encode`: an `&` unless the buffer is
empty, then `key=value`, the key already escaped. -/
def encodeStep (keyEscaped : Str) (buf : Str) (v : Str) : Str :=
  (if buf.length > 0 then buf ++ [bAmp] else buf) ++ keyEscaped ++ [bEq] ++ queryEscape v

/-- Go `Values.Encode()`: the keys sorted (`slices.Sort`, byte-wise order; the
keys of a map are distinct, so the sorted sequence is unique), and for each key
its values in insertion order. -/
def Values.Encode (v : Values) : Str :=
  if v.length = 0 then []
  else
    let keys := (v.map Prod.fst).insertionSort (· ≤ ·)
    keys.foldl (fun buf k => (Values.get v k).foldl (encodeStep (queryEscape k)) buf) []

/-! ## `encoding/base64` -/

/-- The digit of value `n` in the standard base64 alphabet. -/
def b64Digit (n : Nat) : Byte :=
  if n < 26 then byteOf (65 + n)
  else if n < 52 then byteOf (97 + (n - 26))
  else if n < 62 then byteOf (48 + (n - 52))
  else if n = 62 then bPlus
  else bSlash

/-- Go `base64.StdEncoding.EncodeToString`: three bytes give four digits, a
remainder of two bytes three digits and one `=`, of one byte two digits and
`==`. -/
def base64Encode : Str → Str
  | a :: b :: c :: rest =>
    b64Digit (a.val / 4) :: b64Digit (a.val % 4 * 16 + b.val / 16)
      :: b64Digit (b.val % 16 * 4 + c.val / 64) :: b64Digit (c.val % 64) :: base64Encode rest
  | [a, b] =>
    [b64Digit (a.val / 4), b64Digit (a.val % 4 * 16 + b.val / 16), b64Digit (b.val % 16 * 4), bEq]
  | [a] => [b64Digit (a.val / 4), b64Digit (a.val % 4 * 16), bEq, bEq]
  | [] => []

/-- Membership in the standard base64 alphabet `A-Z a-z 0-9 + /`. -/
def isB64Digit (c : Byte) : Bool :=
  (65 ≤ c.val && c.val ≤ 90) || (97 ≤ c.val && c.val ≤ 122) || (48 ≤ c.val && c.val ≤ 57)
    || c == bPlus || c == bSlash

/-- ASCII letters and digits. -/
def isAlnum (c : Byte) : Bool :=
  (65 ≤ c.val && c.val ≤ 90) || (97 ≤ c.val && c.val ≤ 122) || (48 ≤ c.val && c.val ≤ 57)

/-! ## `crypto/sha1` and `crypto/hmac` -/

def mask32 (x : Nat) : Nat := x % 4294967296

/-- Rotate a 32-bit word left by `n` bits. -/
def rotl32 (x n : Nat) : Nat := mask32 (x <<< n) ||| (mask32 x >>> (32 - n))

/-- The four bytes of a 32-bit word, big-endian. -/
def be32 (x : Nat) : Str := [byteOf (x >>> 24), byteOf (x >>> 16), byteOf (x >>> 8), byteOf x]

/-- The eight bytes of a 64-bit word, big-endian. -/
def be64 (x : Nat) : Str := be32 (x >>> 32) ++ be32 x

/-- The big-endian 32-bit words of a block. -/
def toWords : Str → List Nat
  | a :: b :: c :: d :: rest =>
    (a.val * 16777216 + b.val * 65536 + c.val * 256 + d.val) :: toWords rest
  | _ => []

/-- SHA-1 padding: `0x80`, zeros up to 56 modulo 64, the bit length on 8 bytes. -/
def sha1Pad (msg : Str) : Str :=
  msg ++ [byteOf 128] ++ List.replicate ((119 - msg.length % 64) % 64) (byteOf 0)
    ++ be64 (8 * msg.length)

/-- The message schedule: `k` more words after the ones of `w`. -/
def extendW (w : List Nat) : Nat → List Nat
  | 0 => w
  | k + 1 =>
    let w1 := extendW w k
    let i := w1.length
    w1 ++ [rotl32 (w1.getD (i - 3) 0 ^^^ w1.getD (i - 8) 0 ^^^ w1.getD (i - 14) 0
      ^^^ w1.getD (i - 16) 0) 1]

structure Sha1State where
  h0 : Nat
  h1 : Nat
  h2 : Nat
  h3 : Nat
  h4 : Nat
  deriving DecidableEq, Repr

/-- Round `i` of the SHA-1 compression function with schedule word `w`. -/
def sha1Round (s : Sha1State) (i w : Nat) : Sha1State :=
  let f :=
    if i < 20 then (s.h1 &&& s.h2) ||| ((s.h1 ^^^ 4294967295) &&& s.h3)
    else if i < 40 then s.h1 ^^^ s.h2 ^^^ s.h3
    else if i < 60 then (s.h1 &&& s.h2) ||| (s.h1 &&& s.h3) ||| (s.h2 &&& s.h3)
    else s.h1 ^^^ s.h2 ^^^ s.h3
  let k :=
    if i < 20 then 1518500249
    else if i < 40 then 1859775393
    else if i < 60 then 2400959708
    else 3395469782
  { h0 := mask32 (rotl32 s.h0 5 + f + s.h4 + k + w)
    h1 := s.h0
    h2 := rotl32 s.h1 30
    h3 := s.h2
    h4 := s.h3 }

/-- The SHA-1 compression of one 64-byte block. -/
def sha1Block (h : Sha1State) (block : Str) : Sha1State :=
  let w := extendW (toWords block) 64
  let r := (List.range 80).foldl (fun s i => sha1Round s i (w.getD i 0)) h
  { h0 := mask32 (h.h0 + r.h0)
    h1 := mask32 (h.h1 + r.h1)
    h2 := mask32 (h.h2 + r.h2)
    h3 := mask32 (h.h3 + r.h3)
    h4 := mask32 (h.h4 + r.h4) }

/-- The compression of the first `n` blocks of `m`. -/
def sha1Blocks (h : Sha1State) : Nat → Str → Sha1State
  | 0, _ => h
  | n + 1, m => sha1Blocks (sha1Block h (m.take 64)) n (m.drop 64)

def sha1Init : Sha1State :=
  { h0 := 1732584193, h1 := 4023233417, h2 := 2562383102, h3 := 271733878, h4 := 3285377520 }

/-- Go `sha1.Sum`: the 20-byte SHA-1 digest. -/
def sha1 (msg : Str) : Str :=
  let p := sha1Pad msg
  let h := sha1Blocks sha1Init (p.length / 64) p
  be32 h.h0 ++ be32 h.h1 ++ be32 h.h2 ++ be32 h.h3 ++ be32 h.h4

/-- The HMAC key block: a key longer than the block size is hashed first, then
the key is padded with zeros to 64 bytes. -/
def hmacKeyBlock (key : Str) : Str :=
  let k := if key.length > 64 then sha1 key else key
  k ++ List.replicate (64 - k.length) (byteOf 0)

/-- The digest `h.Sum(nil)` of `h := hmac.New(sha1.New, key)` after `data` was
written to it. -/
def hmacSHA1 (key data : Str) : Str :=
  let k := hmacKeyBlock key
  let ipad := k.map fun b => byteOf (b.val ^^^ 54)
  let opad := k.map fun b => byteOf (b.val ^^^ 92)
  sha1 (opad ++ sha1 (ipad ++ data))

/-! ## `fmt` -/

/-- The decimal digits of `n` in front of `acc`, most significant first. -/
def decimalGo : Nat → Nat → Str → Str
  | 0, _, acc => acc
  | fuel + 1, n, acc =>
    let acc1 := byteOf (48 + n % 10) :: acc
    if n / 10 = 0 then acc1 else decimalGo fuel (n / 10) acc1

/-- Go `fmt.Sprintf("%d", n)` of an integer. -/
def fmtInt (n : Int) : Str :=
  if n < 0 then byteOf 45 :: decimalGo ((-n).toNat + 1) (-n).toNat []
  else decimalGo (n.toNat + 1) n.toNat []

/-! ## `oauth1.go` -/

def OAuthVersion10 : Str := str "1.0"

def OAuthSignatureMethodHMACSHA1 : Str := str "HMAC-SHA1"

structure CreateOAthSignatureInput where
  HTTPMethod : Str
  RawEndpoint : Str
  OAuthConsumerKey : Str
  OAuthToken : Str
  SigningKey : Str
  ParameterMap : List (Str × Str)
  deriving DecidableEq, Repr

structure CreateOAthSignatureOutput where
  OAuthNonce : Str
  OAuthSignatureMethod : Str
  OAuthTimestamp : Str
  OAuthVersion : Str
  OAuthSignature : Str
  deriving DecidableEq, Repr

/-- Source `endpointBase`. -/
def endpointBase (e : Str) : Str :=
  let queryIdx := stringsIndex e [bQuestion]
  if queryIdx < 0 then e else e.take queryIdx.toNat

/-- Source `createParameterString`: the caller's parameters are added in map
iteration order, then the six `oauth_` fields. -/
def createParameterString (paramsMap : List (Str × Str)) (nonce ts : Str)
    (inp : CreateOAthSignatureInput) : Str :=
  let qv : Values := paramsMap.foldl (fun qv kv => Values.Add qv kv.1 kv.2) []
  let qv := Values.Add qv (str "oauth_consumer_key") inp.OAuthConsumerKey
  let qv := Values.Add qv (str "oauth_nonce") nonce
  let qv := Values.Add qv (str "oauth_signature_method") OAuthSignatureMethodHMACSHA1
  let qv := Values.Add qv (str "oauth_timestamp") ts
  let qv := Values.Add qv (str "oauth_token") inp.OAuthToken
  let qv := Values.Add qv (str "oauth_version") OAuthVersion10
  Values.Encode qv

/-- Source `createSignatureBase`. -/
def createSignatureBase (uni : Str → Str) (method endpointBase parameterString : Str) : Str :=
  queryEscape (stringsToUpper uni method) ++ [bAmp] ++ queryEscape endpointBase ++ [bAmp]
    ++ queryEscape parameterString

/-- What `CreateOAuthSignature` reads from outside the program. -/
structure Env where
  /-- `strings.ToUpper` on a string with non-ASCII bytes. -/
  toUpperUnicode : Str → Str
  /-- `rand.Read(key)` on the 32-byte buffer: the buffer afterwards and the error. -/
  randRead : Str × Option Error
  /-- The value of `time.Now().Unix()`. -/
  nowUnix : Int
  /-- The error of `io.WriteString(h, base)` for the HMAC created with a key. -/
  hashWrite : Str → Str → Option Error

/-- The hash write of the standard library: `hash.Hash.Write` never returns an
error. -/
def hashWriteStd : Str → Str → Option Error := fun _ _ => none

/-- Source `generateOAthNonce`, the outcome of `rand.Read(key)` given. -/
def generateOAthNonce (randRead : Str × Option Error) : Str × Option Error :=
  let key := randRead.1
  match randRead.2 with
  | some err => ([], some err)
  | none =>
    let nonce := base64Encode key
    let symbols := [str "+", str "/", str "="]
    let nonce := symbols.foldl (fun nonce s => stringsReplace nonce s [] (-1)) nonce
    (nonce, none)

/-- Source `calculateSignature`, the outcome of the hash write given. -/
def calculateSignature (hashWrite : Str → Str → Option Error) (base key : Str) :
    Str × Option Error :=
  let b := key
  match hashWrite b base with
  | some err => ([], some err)
  | none => (base64Encode (hmacSHA1 b base), none)

/-- Source `CreateOAuthSignature`: the output pointer (`none` for `nil`) and the
error. -/
def CreateOAuthSignature (env : Env) (inp : CreateOAthSignatureInput) :
    Option CreateOAthSignatureOutput × Option Error :=
  let out : CreateOAthSignatureOutput :=
    { OAuthNonce := [], OAuthSignatureMethod := OAuthSignatureMethodHMACSHA1,
      OAuthTimestamp := [], OAuthVersion := OAuthVersion10, OAuthSignature := [] }
  match generateOAthNonce env.randRead with
  | (_, some err) => (none, some err)
  | (nonce, none) =>
    let out := { out with OAuthNonce := nonce }
    let ts := fmtInt env.nowUnix
    let out := { out with OAuthTimestamp := ts }
    let endpointBase := endpointBase inp.RawEndpoint
    let parameterString := createParameterString inp.ParameterMap nonce ts inp
    let sigBase := createSignatureBase env.toUpperUnicode inp.HTTPMethod endpointBase
      parameterString
    match calculateSignature env.hashWrite sigBase inp.SigningKey with
    | (_, some err) => (none, some err)
    | (sig, none) =>
      let out := { out with OAuthSignature := sig }
      (some out, none)

/-! ## `spaces/types/spaces_lookup_parameter.go` -/

/-- A Go slice: `none` is the `nil` slice. -/
abbrev Slice (α : Type) := Option (List α)

/-- Go `len(s)`. -/
def Slice.len {α : Type} (s : Slice α) : Nat := (s.getD []).length

/-- A Go `map[string]string`: its entries, keys pairwise distinct. -/
abbrev StrMap := List (Str × Str)

/-- Go `m[k] = v`. -/
def StrMap.set : StrMap → Str → Str → StrMap
  | [], k, v => [(k, v)]
  | (k', v') :: rest, k, v =>
    if k' = k then (k', v) :: rest else (k', v') :: StrMap.set rest k v

/-- Modelled from the spec: `util.QueryValue` of `internal/util`, which is not
among the sources.  "List-valued fields serialize as a single query value with
elements comma-joined". -/
def QueryValue (params : Slice Str) : Str :=
  if Slice.len params = 0 then [] else stringsJoin (params.getD []) (str ",")

/-- Modelled from the spec: `util.QueryString` of `internal/util`, which is not
among the sources.  "Query parameters are drawn from the type's field set,
filtered to the allow-list, alphabetically key-sorted, percent-encoded" and
joined as `k=v&k=v`. -/
def QueryString (paramsMap : StrMap) (includes : List Str) : Str :=
  let q : Values := paramsMap.foldl
    (fun q kv => if kv.1 ∈ includes then Values.Add q kv.1 kv.2 else q) []
  Values.Encode q

/-- Modelled from the spec: `fields.SetFieldsParams` of package `fields`, which
is not among the sources.  Each field list is given with its query name; "unset
(nil/empty) list fields are omitted entirely, not emitted as empty strings". -/
def SetFieldsParams (m : StrMap) (fields : List (Str × Slice Str)) : StrMap :=
  fields.foldl
    (fun m f => if f.2 ≠ none ∧ Slice.len f.2 > 0 then StrMap.set m f.1 (QueryValue f.2) else m) m

structure SpacesLookupIDParams where
  accessToken : Str
  ID : Str
  Expansions : Slice Str
  SpaceFields : Slice Str
  UserFields : Slice Str
  deriving DecidableEq, Repr

def SpacesLookupIDQueryParams : List Str :=
  [str "expansions", str "space.fields", str "user.fields"]

def SpacesLookupIDParams.SetAccessToken (p : SpacesLookupIDParams) (token : Str) :
    SpacesLookupIDParams :=
  { p with accessToken := token }

def SpacesLookupIDParams.AccessToken (p : SpacesLookupIDParams) : Str := p.accessToken

def SpacesLookupIDParams.ParameterMap (p : SpacesLookupIDParams) : StrMap :=
  let m : StrMap := []
  SetFieldsParams m [(str "expansions", p.Expansions), (str "space.fields", p.SpaceFields),
    (str "user.fields", p.UserFields)]

def SpacesLookupIDParams.ResolveEndpoint (p : SpacesLookupIDParams) (endpointBase : Str) : Str :=
  if p.ID = [] then []
  else
    let encoded := queryEscape p.ID
    let endpoint := stringsReplace endpointBase (str ":id") encoded 1
    let pm := p.ParameterMap
    let qs := QueryString pm SpacesLookupIDQueryParams
    if qs = [] then endpoint else endpoint ++ str "?" ++ qs

structure SpacesLookupParams where
  accessToken : Str
  IDs : Slice Str
  Expansions : Slice Str
  SpaceFields : Slice Str
  UserFields : Slice Str
  deriving DecidableEq, Repr

def SpacesLookupQueryParams : List Str :=
  [str "ids", str "expansions", str "space.fields", str "user.fields"]

def SpacesLookupParams.SetAccessToken (p : SpacesLookupParams) (token : Str) :
    SpacesLookupParams :=
  { p with accessToken := token }

def SpacesLookupParams.AccessToken (p : SpacesLookupParams) : Str := p.accessToken

def SpacesLookupParams.ParameterMap (p : SpacesLookupParams) : StrMap :=
  let m : StrMap := []
  let m := StrMap.set m (str "ids") (QueryValue p.IDs)
  SetFieldsParams m [(str "expansions", p.Expansions), (str "space.fields", p.SpaceFields),
    (str "user.fields", p.UserFields)]

def SpacesLookupParams.ResolveEndpoint (p : SpacesLookupParams) (endpointBase : Str) : Str :=
  if p.IDs = none ∨ Slice.len p.IDs = 0 then []
  else
    let endpoint := endpointBase
    let pm := p.ParameterMap
    let qs := QueryString pm SpacesLookupQueryParams
    if qs = [] then endpoint else endpoint ++ str "?" ++ qs

structure SpacesLookupByCreatorIDsParams where
  accessToken : Str
  UserIDs : Slice Str
  Expansions : Slice Str
  SpaceFields : Slice Str
  UserFields : Slice Str
  deriving DecidableEq, Repr

def SpacesLookupByCreatorIDsQueryParams : List Str :=
  [str "user_ids", str "expansions", str "space.fields", str "user.fields"]

def SpacesLookupByCreatorIDsParams.SetAccessToken (p : SpacesLookupByCreatorIDsParams)
    (token : Str) : SpacesLookupByCreatorIDsParams :=
  { p with accessToken := token }

def SpacesLookupByCreatorIDsParams.AccessToken (p : SpacesLookupByCreatorIDsParams) : Str :=
  p.accessToken

def SpacesLookupByCreatorIDsParams.ParameterMap (p : SpacesLookupByCreatorIDsParams) : StrMap :=
  let m : StrMap := []
  let m := StrMap.set m (str "user_ids") (QueryValue p.UserIDs)
  SetFieldsParams m [(str "expansions", p.Expansions), (str "space.fields", p.SpaceFields),
    (str "user.fields", p.UserFields)]

def SpacesLookupByCreatorIDsParams.ResolveEndpoint (p : SpacesLookupByCreatorIDsParams)
    (endpointBase : Str) : Str :=
  if p.UserIDs = none ∨ Slice.len p.UserIDs = 0 then []
  else
    let endpoint := endpointBase
    let pm := p.ParameterMap
    let qs := QueryString pm SpacesLookupByCreatorIDsQueryParams
    if qs = [] then endpoint else endpoint ++ str "?" ++ qs

/-! ## `strings.Split` and `url.QueryUnescape` -/

/-- The scan of `strings.Split` for a non-empty separator: `acc` holds, reversed,
the bytes of the piece being read, `skip` counts the bytes of a separator still
to be dropped. -/
def stringsSplitGo (sep : Str) : Nat → Str → Str → List Str
  | _, acc, [] => [acc.reverse]
  | skip + 1, acc, _ :: cs => stringsSplitGo sep skip acc cs
  | 0, acc, c :: cs =>
    if sep.isPrefixOf (c :: cs) then acc.reverse :: stringsSplitGo sep (sep.length - 1) [] cs
    else stringsSplitGo sep 0 (c :: acc) cs

/-- Go `strings.Split(s, sep)`: the pieces of `s` between the instances of
`sep`, `[s]` when there is none.  For an empty `sep` Go cuts after every UTF-8
sequence; no caller in this package passes an empty `sep`, and the embedding
returns `[s]` there. -/
def stringsSplit (s sep : Str) : List Str :=
  if sep = [] then [s] else stringsSplitGo sep 0 [] s

/-- Go `url.ishex`. -/
def ishex (c : Byte) : Bool :=
  (48 ≤ c.val && c.val ≤ 57) || (97 ≤ c.val && c.val ≤ 102) || (65 ≤ c.val && c.val ≤ 70)

/-- Go `url.unhex`. -/
def unhex (c : Byte) : Nat :=
  if 48 ≤ c.val ∧ c.val ≤ 57 then c.val - 48
  else if 97 ≤ c.val ∧ c.val ≤ 102 then c.val - 97 + 10
  else if 65 ≤ c.val ∧ c.val ≤ 70 then c.val - 65 + 10
  else 0

/-- The `url.EscapeError` for the fragment `frag`. -/
def escapeError (frag : Str) : Error :=
  ⟨"invalid URL escape " ++ String.mk (frag.map fun b => Char.ofNat b.val)⟩

/-- Go `url.QueryUnescape`: `%XX` becomes the byte `XX`, `+` a space; a `%` that
is not followed by two hex digits is an error, which carries the `%` and at
most two bytes after it. -/
def queryUnescape : Str → Except Error Str
  | [] => .ok []
  | c :: cs =>
    if c = bPercent then
      match cs with
      | h1 :: h2 :: rest =>
        if ishex h1 ∧ ishex h2 then
          match queryUnescape rest with
          | .ok t => .ok (byteOf (unhex h1 * 16 + unhex h2) :: t)
          | .error err => .error err
        else .error (escapeError (c :: h1 :: [h2]))
      | _ => .error (escapeError (c :: cs))
    else
      match queryUnescape cs with
      | .ok t => .ok ((if c = bPlus then bSpace else c) :: t)
      | .error err => .error err

/-! ## `oauth1.go`: `Endpoint.Detail` -/

/-- Source `type Endpoint string`. -/
abbrev Endpoint := Str

structure EndpointInfo where
  Raw : Str
  Base : Str
  EncodedQueryParameterMap : StrMap
  deriving DecidableEq, Repr

/-- Source `Endpoint.String`. -/
def Endpoint.String (e : Endpoint) : Str := e

/-- The body of the loop of `Endpoint.Detail` for the pair `pp`: the key and
the value it stores in the map, or the error it returns. -/
def detailPair (pp : Str) : Except Error (Str × Str) :=
  let keyValue := stringsSplit pp [bEq]
  if keyValue.length = 2 then
    match queryUnescape (keyValue.getD 1 []) with
    | .error err => .error err
    | .ok v => .ok (keyValue.getD 0 [], v)
  else .ok (keyValue.getD 0 [], [])

/-- The loop of `Endpoint.Detail` over the pairs: the map after the last pair,
or the error of the first pair that fails. -/
def detailLoop : List Str → StrMap → Except Error StrMap
  | [], m => .ok m
  | pp :: rest, m =>
    match detailPair pp with
    | .error err => .error err
    | .ok kv => detailLoop rest (StrMap.set m kv.1 kv.2)

/-- Source `Endpoint.Detail`: the info pointer (`none` for `nil`) and the error. -/
def Endpoint.Detail (e : Endpoint) : Option EndpointInfo × Option Error :=
  let d : EndpointInfo := { Raw := Endpoint.String e, Base := [], EncodedQueryParameterMap := [] }
  let queryIdx := stringsIndex (Endpoint.String e) [bQuestion]
  if queryIdx < 0 then (some { d with Base := e }, none)
  else
    let d := { d with Base := (Endpoint.String e).take queryIdx.toNat }
    let queryPart := (Endpoint.String e).drop (queryIdx.toNat + 1)
    let paramsPairs := stringsSplit queryPart [bAmp]
    match detailLoop paramsPairs d.EncodedQueryParameterMap with
    | .error err => (none, some err)
    | .ok m => (some { d with EncodedQueryParameterMap := m }, none)

/-- The pairs `Endpoint.Detail` reads from an endpoint that holds a `?`: the
part after the first `?`, cut at every `&`. -/
def queryPairs (e : Str) : List Str :=
  stringsSplit (e.drop ((stringsIndex e [bQuestion]).toNat + 1)) [bAmp]

/-! ## Response types -/

/-- Modelled from the spec: `resources.PartialError` of package `resources`,
which is not among the sources; the tests set its `Title`. -/
structure PartialError where
  Title : Option Str
  deriving DecidableEq, Repr

/-- Modelled from the spec: the `HasPartialError` method the six response types
share, whose sources are absent: "returns true iff the decoded `errors`
collection of the response is non-empty. An empty or absent errors collection
yields false." -/
def hasPartialError (errors : Slice PartialError) : Bool :=
  !(errors = none ∨ Slice.len errors = 0)

/-- Modelled from the spec: `ListFollowsFollowersResponse` of `lists/types`,
known from its test, with the errors collection. -/
structure ListFollowsFollowersResponse where
  Errors : Slice PartialError
  deriving DecidableEq, Repr

def ListFollowsFollowersResponse.HasPartialError (r : ListFollowsFollowersResponse) : Bool :=
  hasPartialError r.Errors

/-- Modelled from the spec: `ListFollowsFollowedListsResponse` of `lists/types`,
known from its test, with the errors collection. -/
structure ListFollowsFollowedListsResponse where
  Errors : Slice PartialError
  deriving DecidableEq, Repr

def ListFollowsFollowedListsResponse.HasPartialError (r : ListFollowsFollowedListsResponse) :
    Bool :=
  hasPartialError r.Errors

/-- Modelled from the spec: `ListMembersListMembershipsResponse` of
`lists/types`, known from its test, with the errors collection. -/
structure ListMembersListMembershipsResponse where
  Errors : Slice PartialError
  deriving DecidableEq, Repr

def ListMembersListMembershipsResponse.HasPartialError
    (r : ListMembersListMembershipsResponse) : Bool :=
  hasPartialError r.Errors

/-- Modelled from the spec: `ListMembersGetResponse` of `lists/types`, known
from its test, with the errors collection. -/
structure ListMembersGetResponse where
  Errors : Slice PartialError
  deriving DecidableEq, Repr

def ListMembersGetResponse.HasPartialError (r : ListMembersGetResponse) : Bool :=
  hasPartialError r.Errors

/-- Modelled from the spec: `TweetLikesLikingUsersResponse` of `tweets/types`,
known from its test, with the errors collection. -/
structure TweetLikesLikingUsersResponse where
  Errors : Slice PartialError
  deriving DecidableEq, Repr

def TweetLikesLikingUsersResponse.HasPartialError (r : TweetLikesLikingUsersResponse) : Bool :=
  hasPartialError r.Errors

/-- Modelled from the spec: `TweetLikesLikedTweetsResponse` of `tweets/types`,
known from its test, with the errors collection. -/
structure TweetLikesLikedTweetsResponse where
  Errors : Slice PartialError
  deriving DecidableEq, Repr

def TweetLikesLikedTweetsResponse.HasPartialError (r : TweetLikesLikedTweetsResponse) : Bool :=
  hasPartialError r.Errors

/-! ## `tweets/types`: parameter types known from their tests -/

/-- Modelled from the spec: `HideRepliesParams` of `tweets/types`, known from
its test: the path parameter `ID` and the JSON parameter `Hidden`, a pointer to
a boolean (`none` when unset). -/
structure HideRepliesParams where
  accessToken : Str
  ID : Str
  Hidden : Option Bool
  deriving DecidableEq, Repr

/-- Modelled from the spec: `HideRepliesParams.Body`, whose source is absent.
"Body construction for a JSON-bodied parameter type with no optional fields set
yields `"{}"`; with one boolean field set to `false` yields
`{"hidden":false}`".  The reader is given by the text it yields. -/
def HideRepliesParams.Body (p : HideRepliesParams) : Option Str × Option Error :=
  match p.Hidden with
  | none => (some (str "\x7b\x7d"), none)
  | some b =>
    (some (str "\x7b\"hidden\":" ++ (if b then str "true" else str "false") ++ str "\x7d"), none)

/-- Modelled from the spec: `TweetTimelinesTweetsParams` of `tweets/types`,
known from its test: the path parameter `ID` and the query parameters the test
sets; `MaxResults` is unset when zero. -/
structure TweetTimelinesTweetsParams where
  accessToken : Str
  ID : Str
  MaxResults : Nat
  Exclude : Slice Str
  Expansions : Slice Str
  MediaFields : Slice Str
  PlaceFields : Slice Str
  PollFields : Slice Str
  TweetFields : Slice Str
  UserFields : Slice Str
  deriving DecidableEq, Repr

/-- Modelled from the spec: the allow-list of `TweetTimelinesTweetsParams`, the
keys of the case "all query parameters" of its test. -/
def TweetTimelinesTweetsQueryParams : List Str :=
  [str "exclude", str "expansions", str "max_results", str "media.fields", str "place.fields",
   str "poll.fields", str "tweet.fields", str "user.fields"]

/-- Modelled from the spec: `TweetTimelinesTweetsParams.SetAccessToken`, as its
test has it. -/
def TweetTimelinesTweetsParams.SetAccessToken (p : TweetTimelinesTweetsParams) (token : Str) :
    TweetTimelinesTweetsParams :=
  { p with accessToken := token }

/-- Modelled from the spec: `TweetTimelinesTweetsParams.AccessToken`, as its
test has it. -/
def TweetTimelinesTweetsParams.AccessToken (p : TweetTimelinesTweetsParams) : Str :=
  p.accessToken

/-- Modelled from the spec: `TweetTimelinesTweetsParams.ParameterMap`, whose
source is absent: the set field lists comma-joined under their names, and
`max_results` in decimal when set. -/
def TweetTimelinesTweetsParams.ParameterMap (p : TweetTimelinesTweetsParams) : StrMap :=
  let m : StrMap := []
  let m := if p.MaxResults ≠ 0 then StrMap.set m (str "max_results") (fmtInt p.MaxResults) else m
  SetFieldsParams m [(str "exclude", p.Exclude), (str "expansions", p.Expansions),
    (str "media.fields", p.MediaFields), (str "place.fields", p.PlaceFields),
    (str "poll.fields", p.PollFields), (str "tweet.fields", p.TweetFields),
    (str "user.fields", p.UserFields)]

/-- Modelled from the spec: `TweetTimelinesTweetsParams.ResolveEndpoint`, whose
source is absent: the empty string without the required `ID`, else the template
with `:id` replaced and the allow-listed query appended. -/
def TweetTimelinesTweetsParams.ResolveEndpoint (p : TweetTimelinesTweetsParams)
    (endpointBase : Str) : Str :=
  if p.ID = [] then []
  else
    let encoded := queryEscape p.ID
    let endpoint := stringsReplace endpointBase (str ":id") encoded 1
    let pm := p.ParameterMap
    let qs := QueryString pm TweetTimelinesTweetsQueryParams
    if qs = [] then endpoint else endpoint ++ str "?" ++ qs

/-! ## Vocabulary of the statements -/

/-- One entry of an encoded query: `key=value`, both escaped. -/
def encodePair (p : Str × Str) : Str := queryEscape p.1 ++ [bEq] ++ queryEscape p.2

/-- The six pairs the signature engine injects, in ascending order of the key. -/
def oauthPairs (nonce ts : Str) (inp : CreateOAthSignatureInput) : List (Str × Str) :=
  [(str "oauth_consumer_key", inp.OAuthConsumerKey), (str "oauth_nonce", nonce),
   (str "oauth_signature_method", OAuthSignatureMethodHMACSHA1), (str "oauth_timestamp", ts),
   (str "oauth_token", inp.OAuthToken), (str "oauth_version", OAuthVersion10)]

/-- A key of the reserved `oauth_` family. -/
def isOAuthKey (k : Str) : Bool := (str "oauth_").isPrefixOf k

/-- The keys of the entries of an encoded query, read left to right: the query
is cut at every `&`, each entry at its first `=`. -/
def encodedKeys (q : Str) : List Str :=
  (q.splitOn bAmp).map fun e => e.takeWhile (· ≠ bEq)

/-- The number of spaces in the keys and values of a list of entries. -/
def spaceCount (M : List (Str × Str)) : Nat :=
  (M.map fun p => p.1.count bSpace + p.2.count bSpace).sum

/-- A field list is set when it is non-nil and non-empty. -/
abbrev fieldSet (l : Slice Str) : Prop := l ≠ none ∧ Slice.len l > 0

/-- The three optional field lists of the spaces lookups, under their query
names, in ascending order of the name. -/
def optionalFields (expansions spaceFields userFields : Slice Str) : List (Str × Slice Str) :=
  [(str "expansions", expansions), (str "space.fields", spaceFields),
   (str "user.fields", userFields)]

/-- The entries of the field lists that are set: the name and the elements
joined by `,`. -/
def setFieldEntries (fields : List (Str × Slice Str)) : StrMap :=
  (fields.filter fun f => fieldSet f.2).map fun f => (f.1, stringsJoin (f.2.getD []) (str ","))

def bHash : Byte := 35     -- '#'

/-- A valid URL query escaping: every `%` of the string is followed by two hex
digits. -/
def wellEscaped (s : Str) : Bool :=
  (List.range s.length).all fun i =>
    s.getD i 0 != bPercent
      || (decide (i + 2 < s.length) && ishex (s.getD (i + 1) 0) && ishex (s.getD (i + 2) 0))

/-! # Theorems -/

set_option maxRecDepth 100000

/-! ## Facts about single bytes -/

theorem escapeByte_no_amp : ∀ c : Byte, bAmp ∉ escapeByte c := by decide

theorem escapeByte_no_space : ∀ c : Byte, bSpace ∉ escapeByte c := by decide

theorem escapeByte_ne_nil : ∀ c : Byte, escapeByte c ≠ [] := by decide

theorem escapeByte_count_plus : ∀ c : Byte,
    (escapeByte c).count bPlus = if c = bSpace then 1 else 0 := by decide

theorem mem_queryEscape {x : Byte} {s : Str} :
    x ∈ queryEscape s ↔ ∃ c ∈ s, x ∈ escapeByte c := by
  simp [queryEscape, List.mem_flatMap]

theorem amp_not_mem_queryEscape (s : Str) : bAmp ∉ queryEscape s := by
  rw [mem_queryEscape]
  rintro ⟨c, _, h⟩
  exact escapeByte_no_amp c h

theorem queryEscape_append (s t : Str) : queryEscape (s ++ t) = queryEscape s ++ queryEscape t := by
  simp [queryEscape, List.flatMap_append]

theorem queryEscape_cons (c : Byte) (t : Str) : queryEscape (c :: t) = escapeByte c ++ queryEscape t := by
  simp [queryEscape, List.flatMap_cons]

/-! ## `strings.Index` of a single byte -/

theorem stringsIndexGo_single (c : Byte) (s : Str) (i : Nat) :
    (c ∈ s → ∃ pre rest, s = pre ++ c :: rest ∧ c ∉ pre ∧
      stringsIndexGo [c] s i = ((i + pre.length : Nat) : Int)) ∧
    (c ∉ s → stringsIndexGo [c] s i = -1) := by
  induction s generalizing i with
  | nil => simp [stringsIndexGo, List.isPrefixOf]
  | cons d cs ih =>
    by_cases hd : c = d
    · subst hd
      refine ⟨fun _ => ⟨[], cs, by simp, by simp, ?_⟩, fun h => absurd (List.mem_cons_self _ _) h⟩
      simp [stringsIndexGo, List.isPrefixOf]
    · have hgo : stringsIndexGo [c] (d :: cs) i = stringsIndexGo [c] cs (i + 1) := by
        simp [stringsIndexGo, List.isPrefixOf, hd]
      constructor
      · intro hmem
        have hcs : c ∈ cs := by
          rcases List.mem_cons.1 hmem with h | h
          · exact absurd h hd
          · exact h
        obtain ⟨pre, rest, hs, hpre, hidx⟩ := (ih (i + 1)).1 hcs
        refine ⟨d :: pre, rest, by simp [hs], ?_, ?_⟩
        · simp [hd, hpre]
        · rw [hgo, hidx]; simp; omega
      · intro hmem
        rw [hgo]
        exact (ih (i + 1)).2 (fun h => hmem (List.mem_cons_of_mem _ h))

theorem count_append3 (x y z : Str) (hx : bAmp ∉ x) (hy : bAmp ∉ y) (hz : bAmp ∉ z) :
    (x ++ [bAmp] ++ y ++ [bAmp] ++ z).count bAmp = 2 := by
  simp [List.count_append, List.count_eq_zero_of_not_mem hx, List.count_eq_zero_of_not_mem hy,
    List.count_eq_zero_of_not_mem hz]

/-- Two strings without the separator that agree after a separator is appended
to each are equal, and so are the remainders. -/
theorem split_at_sep (c : Byte) (x x' r r' : Str) (hx : c ∉ x) (hx' : c ∉ x')
    (h : x ++ c :: r = x' ++ c :: r') : x = x' ∧ r = r' := by
  induction x generalizing x' with
  | nil =>
    cases x' with
    | nil => simpa using h
    | cons d t =>
      simp at h
      exact absurd (by rw [h.1]; simp) hx'
  | cons a t ih =>
    cases x' with
    | nil =>
      simp at h
      exact absurd (by rw [← h.1]; simp) hx
    | cons d t' =>
      simp at h
      obtain ⟨h1, h2⟩ := h
      have := ih t' (fun hm => hx (List.mem_cons_of_mem _ hm))
        (fun hm => hx' (List.mem_cons_of_mem _ hm)) h2
      exact ⟨by rw [h1, this.1], this.2⟩

/-! ## Claims -/

/-- C4: for an endpoint that contains `?`, `endpointBase` is the part strictly
before the first `?` (the endpoint is that part, a `?` and a remainder, and the
part holds no `?`); for an endpoint without `?` it is the endpoint itself. -/
theorem endpointBase_spec (e : Str) :
    (bQuestion ∈ e →
      ∃ rest, e = endpointBase e ++ bQuestion :: rest ∧ bQuestion ∉ endpointBase e) ∧
    (bQuestion ∉ e → endpointBase e = e) := by
  constructor
  · intro h
    obtain ⟨pre, rest, hs, hpre, hidx⟩ := (stringsIndexGo_single bQuestion e 0).1 h
    have hb : endpointBase e = pre := by
      simp only [endpointBase, stringsIndex, hidx]
      have : ¬ (((0 + pre.length : Nat) : Int) < 0) := by omega
      rw [if_neg this, hs]
      simp
    rw [hb]
    exact ⟨rest, hs, hpre⟩
  · intro h
    have hidx := (stringsIndexGo_single bQuestion e 0).2 h
    simp [endpointBase, stringsIndex, hidx]

/-- Witness of C4 on `https://a/b?x=1?y`. -/
theorem endpointBase_spec_witness :
    endpointBase (str "https://a/b?x=1?y") = str "https://a/b" ∧
    ∃ rest, str "https://a/b?x=1?y" = endpointBase (str "https://a/b?x=1?y") ++ bQuestion :: rest
      ∧ bQuestion ∉ endpointBase (str "https://a/b?x=1?y") :=
  ⟨by decide, (endpointBase_spec (str "https://a/b?x=1?y")).1 (by decide)⟩

/-- C10: a missing required value makes `ResolveEndpoint` return the empty string
for every template and whatever the other fields are: an empty `ID`, and `IDs`
or `UserIDs` that is nil or of length 0. -/
theorem ResolveEndpoint_missing_required (T : Str) :
    (∀ p : SpacesLookupIDParams, p.ID = [] → p.ResolveEndpoint T = []) ∧
    (∀ p : SpacesLookupParams, p.IDs = none ∨ Slice.len p.IDs = 0 → p.ResolveEndpoint T = []) ∧
    (∀ p : SpacesLookupByCreatorIDsParams,
      p.UserIDs = none ∨ Slice.len p.UserIDs = 0 → p.ResolveEndpoint T = []) := by
  refine ⟨fun p h => ?_, fun p h => ?_, fun p h => ?_⟩
  · simp [SpacesLookupIDParams.ResolveEndpoint, h]
  · simp only [SpacesLookupParams.ResolveEndpoint, if_pos h]
  · simp only [SpacesLookupByCreatorIDsParams.ResolveEndpoint, if_pos h]

/-- Witness of C10: the three parameter types with optional fields set and the
required value missing. -/
theorem ResolveEndpoint_missing_required_witness :
    (⟨str "t", [], some [str "a"], none, none⟩ : SpacesLookupIDParams).ResolveEndpoint
        (str "test/endpoint/:id") = [] ∧
    (⟨str "t", some [], some [str "a"], none, none⟩ : SpacesLookupParams).ResolveEndpoint
        (str "test/endpoint/:id") = [] ∧
    (⟨str "t", none, none, none, some [str "u"]⟩ : SpacesLookupByCreatorIDsParams).ResolveEndpoint
        (str "test/endpoint/:id") = [] :=
  ⟨(ResolveEndpoint_missing_required (str "test/endpoint/:id")).1 _ rfl,
   (ResolveEndpoint_missing_required (str "test/endpoint/:id")).2.1 _ (Or.inr (by decide)),
   (ResolveEndpoint_missing_required (str "test/endpoint/:id")).2.2 _ (Or.inl rfl)⟩

/-- C2: the signature base string is the escaped upper-cased method, `&`, the
escaped base endpoint, `&`, the escaped parameter string; no escaped segment
contains `&`, so the result has exactly two `&` and the three segments are
determined by it; methods with the same upper-casing, in particular ASCII
methods that differ only in letter case, give the same base string. -/
theorem createSignatureBase_spec (uni : Str → Str) (m b s : Str) :
    createSignatureBase uni m b s
      = queryEscape (stringsToUpper uni m) ++ [bAmp] ++ queryEscape b ++ [bAmp] ++ queryEscape s ∧
    (createSignatureBase uni m b s).count bAmp = 2 ∧
    (bAmp ∉ queryEscape (stringsToUpper uni m) ∧ bAmp ∉ queryEscape b ∧ bAmp ∉ queryEscape s) ∧
    (∀ m1 b1 s1, createSignatureBase uni m1 b1 s1 = createSignatureBase uni m b s →
      queryEscape (stringsToUpper uni m1) = queryEscape (stringsToUpper uni m) ∧
      queryEscape b1 = queryEscape b ∧ queryEscape s1 = queryEscape s) ∧
    (∀ m1, stringsToUpper uni m1 = stringsToUpper uni m →
      createSignatureBase uni m1 b s = createSignatureBase uni m b s) ∧
    (∀ m1, m.all (fun c => c.val < 128) = true → m1.all (fun c => c.val < 128) = true →
      m1.map asciiUpper = m.map asciiUpper →
      createSignatureBase uni m1 b s = createSignatureBase uni m b s) := by
  refine ⟨rfl, ?_, ⟨amp_not_mem_queryEscape _, amp_not_mem_queryEscape _,
    amp_not_mem_queryEscape _⟩, ?_, ?_, ?_⟩
  · exact count_append3 _ _ _ (amp_not_mem_queryEscape _) (amp_not_mem_queryEscape _)
      (amp_not_mem_queryEscape _)
  · intro m1 b1 s1 h
    simp only [createSignatureBase, List.append_assoc, List.singleton_append] at h
    obtain ⟨h1, h2⟩ := split_at_sep bAmp _ _ _ _ (amp_not_mem_queryEscape _)
      (amp_not_mem_queryEscape _) h
    obtain ⟨h3, h4⟩ := split_at_sep bAmp _ _ _ _ (amp_not_mem_queryEscape _)
      (amp_not_mem_queryEscape _) h2
    exact ⟨h1, h3, h4⟩
  · intro m1 h
    simp [createSignatureBase, h]
  · intro m1 hm hm1 h
    simp [createSignatureBase, stringsToUpper, hm, hm1, h]

/-- Witness of C2: `get` and `GeT` give the base string of `GET`. -/
theorem createSignatureBase_spec_witness :
    createSignatureBase id (str "GeT") (str "https://a/b") (str "a=1&b=2")
      = createSignatureBase id (str "get") (str "https://a/b") (str "a=1&b=2") ∧
    createSignatureBase id (str "get") (str "https://a/b") (str "a=1&b=2")
      = str "GET&https%3A%2F%2Fa%2Fb&a%3D1%26b%3D2" :=
  ⟨(createSignatureBase_spec id (str "get") (str "https://a/b") (str "a=1&b=2")).2.2.2.2.2
    (str "GeT") (by decide) (by decide) (by decide), by decide⟩

theorem Values.Add_of_not_mem (v : Values) (k x : Str) (h : k ∉ v.map Prod.fst) :
    Values.Add v k x = v ++ [(k, [x])] := by
  induction v with
  | nil => rfl
  | cons e rest ih =>
    obtain ⟨k1, vs⟩ := e
    simp only [List.map_cons, List.mem_cons, not_or] at h
    have hne : ¬ k1 = k := fun hh => h.1 hh.symm
    simp [Values.Add, hne, ih h.2]

theorem foldl_Add (P : List (Str × Str)) (qv : Values)
    (h : (qv.map Prod.fst ++ P.map Prod.fst).Nodup) :
    P.foldl (fun qv kv => Values.Add qv kv.1 kv.2) qv
      = qv ++ P.map (fun kv => (kv.1, [kv.2])) := by
  induction P generalizing qv with
  | nil => simp
  | cons e rest ih =>
    have hk : e.1 ∉ qv.map Prod.fst := by
      intro hm
      rw [List.nodup_append] at h
      exact h.2.2 hm (by simp)
    rw [List.foldl_cons, Values.Add_of_not_mem _ _ _ hk, ih]
    · simp
    · simpa [List.append_assoc] using h

theorem createParameterString_eq (P : List (Str × Str)) (n t : Str)
    (inp : CreateOAthSignatureInput) :
    createParameterString P n t inp
      = Values.Encode ((P ++ oauthPairs n t inp).foldl (fun qv kv => Values.Add qv kv.1 kv.2) []) := by
  simp [createParameterString, oauthPairs, List.foldl_append]

theorem stringsJoin_cons (x : Str) (xs : List Str) (sep : Str) :
    stringsJoin (x :: xs) sep = x ++ xs.flatMap (fun y => sep ++ y) := by
  induction xs generalizing x with
  | nil => simp [stringsJoin]
  | cons y ys ih =>
    rw [stringsJoin, ih]
    · simp [List.flatMap_cons, List.append_assoc]
    · simp

theorem foldl_encodeStep_of_ne (L : List (Str × Str)) (buf : Str) (h : buf ≠ []) :
    L.foldl (fun buf p => encodeStep (queryEscape p.1) buf p.2) buf
      = buf ++ L.flatMap (fun p => [bAmp] ++ encodePair p) := by
  induction L generalizing buf with
  | nil => simp
  | cons p rest ih =>
    have hlen : buf.length > 0 := List.length_pos.2 h
    have hstep : encodeStep (queryEscape p.1) buf p.2 = buf ++ ([bAmp] ++ encodePair p) := by
      simp [encodeStep, hlen, encodePair, List.append_assoc]
    rw [List.foldl_cons, hstep, ih]
    · simp [List.flatMap_cons, List.append_assoc]
    · simp [h]

theorem foldl_encodeStep_nil (L : List (Str × Str)) :
    L.foldl (fun buf p => encodeStep (queryEscape p.1) buf p.2) []
      = stringsJoin (L.map encodePair) [bAmp] := by
  cases L with
  | nil => simp [stringsJoin]
  | cons p rest =>
    have hstep : encodeStep (queryEscape p.1) [] p.2 = encodePair p := by
      simp [encodeStep, encodePair]
    have hne : encodePair p ≠ [] := by simp [encodePair]
    rw [List.foldl_cons, hstep, foldl_encodeStep_of_ne _ _ hne, List.map_cons, stringsJoin_cons]
    simp [List.flatMap_map]

theorem foldl_values_eq (v : Values) (ks : List Str) (buf : Str) :
    ks.foldl (fun buf k => (Values.get v k).foldl (encodeStep (queryEscape k)) buf) buf
      = (ks.flatMap fun k => (Values.get v k).map fun x => (k, x)).foldl
          (fun buf p => encodeStep (queryEscape p.1) buf p.2) buf := by
  induction ks generalizing buf with
  | nil => simp
  | cons k rest ih =>
    rw [List.foldl_cons, ih, List.flatMap_cons, List.foldl_append, List.foldl_map]

/-- The result of `Values.Encode` as a join: the pairs of the sorted keys, each
key with its values in insertion order. -/
theorem Values.Encode_eq_join (v : Values) :
    Values.Encode v = stringsJoin
      ((((v.map Prod.fst).insertionSort (· ≤ ·)).flatMap fun k =>
        (Values.get v k).map fun x => (k, x)).map encodePair) [bAmp] := by
  unfold Values.Encode
  split
  · rename_i h
    have : v = [] := List.length_eq_zero.1 h
    subst this
    simp [stringsJoin]
  · simp only
    rw [foldl_values_eq, foldl_encodeStep_nil]

theorem lookup_single (M : List (Str × Str)) (h : (M.map Prod.fst).Nodup) (p : Str × Str)
    (hp : p ∈ M) :
    Values.get (M.map fun kv => (kv.1, [kv.2])) p.1 = [p.2] := by
  induction M with
  | nil => simp at hp
  | cons e rest ih =>
    simp only [List.map_cons, List.nodup_cons] at h
    rcases List.mem_cons.1 hp with he | hr
    · subst he
      simp [Values.get, List.lookup]
    · have hne : ¬ p.1 = e.1 := by
        intro hh
        exact h.1 (hh ▸ List.mem_map_of_mem Prod.fst hr)
      have := ih h.2 hr
      simp only [Values.get] at this ⊢
      simp only [List.map_cons, List.lookup]
      have hb : (p.1 == e.1) = false := by simpa using hne
      rw [hb]
      exact this

theorem sorted_byKey (M : List (Str × Str)) :
    (M.insertionSort fun a b => a.1 ≤ b.1).Sorted (fun a b => a.1 ≤ b.1) := by
  haveI : IsTotal (Str × Str) (fun a b => a.1 ≤ b.1) := ⟨fun a b => le_total a.1 b.1⟩
  haveI : IsTrans (Str × Str) (fun a b => a.1 ≤ b.1) := ⟨fun _ _ _ h1 h2 => le_trans h1 h2⟩
  exact List.sorted_insertionSort _ M

/-- The keys of the entries sorted by key are the sorted keys. -/
theorem sortedKeys_eq (M : List (Str × Str)) :
    (M.insertionSort fun a b => a.1 ≤ b.1).map Prod.fst
      = (M.map Prod.fst).insertionSort (· ≤ ·) := by
  apply List.eq_of_perm_of_sorted (r := (· ≤ ·))
  · exact ((List.perm_insertionSort _ M).map _).trans (List.perm_insertionSort _ _).symm
  · exact List.pairwise_map.2 (sorted_byKey M)
  · exact List.sorted_insertionSort _ _

theorem Values.Encode_single (M : List (Str × Str)) (h : (M.map Prod.fst).Nodup) :
    Values.Encode (M.map fun kv => (kv.1, [kv.2]))
      = stringsJoin ((M.insertionSort fun a b => a.1 ≤ b.1).map encodePair) [bAmp] := by
  rw [Values.Encode_eq_join]
  have hk : (M.map fun kv : Str × Str => (kv.1, [kv.2])).map Prod.fst = M.map Prod.fst := by
    simp [List.map_map, Function.comp_def]
  rw [hk, ← sortedKeys_eq, List.flatMap_map]
  congr 1
  congr 1
  have hall : ∀ p ∈ M.insertionSort (fun a b => a.1 ≤ b.1),
      (Values.get (M.map fun kv => (kv.1, [kv.2])) p.1).map (fun x => (p.1, x)) = [p] := by
    intro p hp
    have hpM : p ∈ M := (List.perm_insertionSort _ M).mem_iff.1 hp
    rw [lookup_single M h p hpM]
    rfl
  generalize M.insertionSort (fun a b => a.1 ≤ b.1) = L at hall
  induction L with
  | nil => rfl
  | cons p rest ih =>
    rw [List.flatMap_cons, hall p (List.mem_cons_self _ _),
      ih (fun q hq => hall q (List.mem_cons_of_mem _ hq))]
    rfl

theorem oauthPairs_keys (n t : Str) (inp : CreateOAthSignatureInput) :
    (oauthPairs n t inp).map Prod.fst
      = [str "oauth_consumer_key", str "oauth_nonce", str "oauth_signature_method",
         str "oauth_timestamp", str "oauth_token", str "oauth_version"] := rfl

theorem oauthPairs_keys_sorted (n t : Str) (inp : CreateOAthSignatureInput) :
    ((oauthPairs n t inp).map Prod.fst).Sorted (· < ·) := by
  rw [oauthPairs_keys]
  decide

theorem oauthPairs_isOAuthKey (n t : Str) (inp : CreateOAthSignatureInput) :
    ∀ k ∈ (oauthPairs n t inp).map Prod.fst, isOAuthKey k = true := by
  rw [oauthPairs_keys]
  decide

/-- The keys of the caller's entries and of the six injected ones are distinct
when the caller's are and none of them is an `oauth_` key. -/
theorem nodup_allKeys (P : List (Str × Str)) (n t : Str) (inp : CreateOAthSignatureInput)
    (hnd : (P.map Prod.fst).Nodup) (hno : ∀ p ∈ P, isOAuthKey p.1 = false) :
    ((P ++ oauthPairs n t inp).map Prod.fst).Nodup := by
  rw [List.map_append, List.nodup_append]
  refine ⟨hnd, (oauthPairs_keys_sorted n t inp).nodup, ?_⟩
  intro k hk1 hk2
  obtain ⟨p, hp, rfl⟩ := List.mem_map.1 hk1
  have h1 := hno p hp
  have h2 := oauthPairs_isOAuthKey n t inp p.1 hk2
  rw [h1] at h2
  exact Bool.false_ne_true h2

theorem strict_byKey (M : List (Str × Str)) (h : (M.map Prod.fst).Nodup) :
    (M.insertionSort fun a b => a.1 ≤ b.1).Pairwise (fun a b => a.1 < b.1) := by
  have hs : ((M.insertionSort fun a b => a.1 ≤ b.1).map Prod.fst).Sorted (· ≤ ·) :=
    List.pairwise_map.2 (sorted_byKey M)
  have hn : ((M.insertionSort fun a b => a.1 ≤ b.1).map Prod.fst).Nodup :=
    ((List.perm_insertionSort _ M).map Prod.fst).nodup_iff.2 h
  exact List.pairwise_map.1 (hs.lt_of_le hn)

theorem eq_of_perm_of_strict (L1 L2 : List (Str × Str)) (hp : L1.Perm L2)
    (h1 : L1.Pairwise (fun a b => a.1 < b.1)) (h2 : L2.Pairwise (fun a b => a.1 < b.1)) :
    L1 = L2 := by
  haveI : IsAntisymm (Str × Str) (fun a b => a.1 < b.1) :=
    ⟨fun a b hab hba => absurd hab (lt_asymm hba)⟩
  exact List.eq_of_perm_of_sorted hp h1 h2

/-- The parameter string of a map with distinct keys, none of them an `oauth_`
key: the join of the caller's and the injected entries sorted by key. -/
theorem createParameterString_sorted (P : List (Str × Str)) (n t : Str)
    (inp : CreateOAthSignatureInput)
    (hnd : (P.map Prod.fst).Nodup) (hno : ∀ p ∈ P, isOAuthKey p.1 = false) :
    createParameterString P n t inp
      = stringsJoin (((P ++ oauthPairs n t inp).insertionSort fun a b => a.1 ≤ b.1).map
          encodePair) [bAmp] := by
  have hk := nodup_allKeys P n t inp hnd hno
  rw [createParameterString_eq, foldl_Add _ _ (by simpa using hk)]
  simpa using Values.Encode_single _ hk

/-- C1: for a caller map with distinct keys and no `oauth_` key, the parameter
string is the `&`-join of `|P| + 6` escaped `key=value` entries, the caller's
together with the six injected ones, in strictly ascending order of the
unescaped key; it does not depend on the iteration order of the map; for the
empty map it is the join of the six injected entries. -/
theorem createParameterString_spec (P : List (Str × Str)) (n t : Str)
    (inp : CreateOAthSignatureInput)
    (hnd : (P.map Prod.fst).Nodup) (hno : ∀ p ∈ P, isOAuthKey p.1 = false) :
    (∃ L : List (Str × Str), L.Perm (P ++ oauthPairs n t inp) ∧
      L.Pairwise (fun a b => a.1 < b.1) ∧ L.length = P.length + 6 ∧
      createParameterString P n t inp = stringsJoin (L.map encodePair) [bAmp]) ∧
    (∀ P1 : List (Str × Str), P1.Perm P →
      createParameterString P1 n t inp = createParameterString P n t inp) ∧
    createParameterString [] n t inp
      = stringsJoin ((oauthPairs n t inp).map encodePair) [bAmp] := by
  have hk := nodup_allKeys P n t inp hnd hno
  refine ⟨⟨_, List.perm_insertionSort _ _, strict_byKey _ hk, ?_,
    createParameterString_sorted P n t inp hnd hno⟩, ?_, ?_⟩
  · simp [List.length_insertionSort, oauthPairs]
  · intro P1 hperm
    have hnd1 : (P1.map Prod.fst).Nodup := (hperm.map Prod.fst).nodup_iff.2 hnd
    have hno1 : ∀ p ∈ P1, isOAuthKey p.1 = false := fun p hp => hno p (hperm.mem_iff.1 hp)
    have hk1 := nodup_allKeys P1 n t inp hnd1 hno1
    rw [createParameterString_sorted P1 n t inp hnd1 hno1,
      createParameterString_sorted P n t inp hnd hno]
    congr 2
    apply eq_of_perm_of_strict _ _ _ (strict_byKey _ hk1) (strict_byKey _ hk)
    exact (List.perm_insertionSort _ _).trans
      ((hperm.append_right _).trans (List.perm_insertionSort _ _).symm)
  · rw [createParameterString_sorted [] n t inp (by simp) (by simp)]
    have hs : ([] ++ oauthPairs n t inp).insertionSort (fun a b => a.1 ≤ b.1)
        = oauthPairs n t inp :=
      eq_of_perm_of_strict _ _ (List.perm_insertionSort _ _)
        (strict_byKey _ (by simpa using (oauthPairs_keys_sorted n t inp).nodup))
        (List.pairwise_map.1 (oauthPairs_keys_sorted n t inp))
    rw [hs]

/-- Witness of C1: a map of two entries, visited in either order. -/
theorem createParameterString_spec_witness :
    createParameterString [(str "b", str "2"), (str "a", str "x y")] (str "N") (str "1")
        ⟨str "get", str "https://a/b", str "ck", str "tok", str "sk", []⟩
      = createParameterString [(str "a", str "x y"), (str "b", str "2")] (str "N") (str "1")
        ⟨str "get", str "https://a/b", str "ck", str "tok", str "sk", []⟩ ∧
    createParameterString [(str "a", str "x y"), (str "b", str "2")] (str "N") (str "1")
        ⟨str "get", str "https://a/b", str "ck", str "tok", str "sk", []⟩
      = str ("a=x+y&b=2&oauth_consumer_key=ck&oauth_nonce=N&oauth_signature_method=HMAC-SHA1"
          ++ "&oauth_timestamp=1&oauth_token=tok&oauth_version=1.0") :=
  ⟨(createParameterString_spec [(str "a", str "x y"), (str "b", str "2")] (str "N") (str "1")
      ⟨str "get", str "https://a/b", str "ck", str "tok", str "sk", []⟩
      (by decide) (by decide)).2.1 [(str "b", str "2"), (str "a", str "x y")]
      (List.Perm.swap _ _ _), by decide⟩

/-- The pairs stored in a `Values`, key by key. -/
theorem Values.keys_Add (v : Values) (k x : Str) :
    (Values.Add v k x).map Prod.fst
      = if k ∈ v.map Prod.fst then v.map Prod.fst else v.map Prod.fst ++ [k] := by
  induction v with
  | nil => simp [Values.Add]
  | cons e rest ih =>
    obtain ⟨k1, vs⟩ := e
    by_cases h : k1 = k
    · subst h
      simp [Values.Add]
    · have h2 : ¬ k = k1 := fun hh => h hh.symm
      simp only [Values.Add, if_neg h, List.map_cons, ih, List.mem_cons, h2, false_or]
      split <;> simp

theorem Values.nodup_Add (v : Values) (k x : Str) (h : (v.map Prod.fst).Nodup) :
    ((Values.Add v k x).map Prod.fst).Nodup := by
  rw [Values.keys_Add]
  split
  · exact h
  · rename_i hk
    exact List.Nodup.append h (by simp) (by simpa using hk)

theorem Values.flatten_Add (v : Values) (k x : Str) :
    ((Values.Add v k x).flatMap fun e => e.2.map fun y => (e.1, y)).Perm
      ((v.flatMap fun e => e.2.map fun y => (e.1, y)) ++ [(k, x)]) := by
  induction v with
  | nil => simp [Values.Add]
  | cons e rest ih =>
    obtain ⟨k1, vs⟩ := e
    by_cases h : k1 = k
    · subst h
      simp only [Values.Add, if_true, List.flatMap_cons, List.map_append, List.map_cons,
        List.map_nil, List.append_assoc]
      exact List.Perm.append_left _ List.perm_append_comm
    · simp only [Values.Add, if_neg h, List.flatMap_cons, List.append_assoc]
      exact List.Perm.append_left _ ih

theorem Values.foldl_Add_invariant (M : List (Str × Str)) (v : Values)
    (h : (v.map Prod.fst).Nodup) :
    ((M.foldl (fun qv kv => Values.Add qv kv.1 kv.2) v).map Prod.fst).Nodup ∧
    ((M.foldl (fun qv kv => Values.Add qv kv.1 kv.2) v).flatMap
      fun e => e.2.map fun y => (e.1, y)).Perm
      ((v.flatMap fun e => e.2.map fun y => (e.1, y)) ++ M) := by
  induction M generalizing v with
  | nil => simpa using h
  | cons p rest ih =>
    obtain ⟨h1, h2⟩ := ih (Values.Add v p.1 p.2) (Values.nodup_Add v p.1 p.2 h)
    refine ⟨h1, h2.trans ?_⟩
    have := (Values.flatten_Add v p.1 p.2).append_right rest
    simpa [List.append_assoc] using this

theorem Values.get_self (v : Values) (h : (v.map Prod.fst).Nodup) (e : Str × List Str)
    (he : e ∈ v) : Values.get v e.1 = e.2 := by
  induction v with
  | nil => simp at he
  | cons d rest ih =>
    simp only [List.map_cons, List.nodup_cons] at h
    rcases List.mem_cons.1 he with hd | hr
    · subst hd
      simp [Values.get, List.lookup]
    · have hne : ¬ e.1 = d.1 := fun hh => h.1 (hh ▸ List.mem_map_of_mem Prod.fst hr)
      have hb : (e.1 == d.1) = false := by simpa using hne
      have := ih h.2 hr
      simp only [Values.get] at this ⊢
      simp only [List.lookup, hb]
      exact this

/-- The pairs `Values.Encode` writes are, up to order, the pairs stored. -/
theorem Values.encoded_perm (v : Values) (h : (v.map Prod.fst).Nodup) :
    (((v.map Prod.fst).insertionSort (· ≤ ·)).flatMap fun k =>
      (Values.get v k).map fun x => (k, x)).Perm
      (v.flatMap fun e => e.2.map fun y => (e.1, y)) := by
  refine (List.Perm.flatMap_right _ (List.perm_insertionSort _ _)).trans ?_
  rw [List.flatMap_map]
  apply List.Perm.flatMap_left
  intro e he
  rw [Values.get_self v h e he]

/-- The parameter string of any caller map: the join of the encoded entries, a
rearrangement of the caller's entries and the six injected ones. -/
theorem createParameterString_perm (P : List (Str × Str)) (n t : Str)
    (inp : CreateOAthSignatureInput) :
    ∃ L : List (Str × Str), L.Perm (P ++ oauthPairs n t inp) ∧
      createParameterString P n t inp = stringsJoin (L.map encodePair) [bAmp] := by
  obtain ⟨h1, h2⟩ := Values.foldl_Add_invariant (P ++ oauthPairs n t inp) [] (by simp)
  refine ⟨_, (Values.encoded_perm _ h1).trans (by simpa using h2), ?_⟩
  rw [createParameterString_eq, Values.Encode_eq_join]

theorem count_plus_queryEscape (s : Str) : (queryEscape s).count bPlus = s.count bSpace := by
  induction s with
  | nil => rfl
  | cons c rest ih =>
    rw [queryEscape_cons, List.count_append, ih, escapeByte_count_plus, List.count_cons]
    by_cases h : c = bSpace
    · simp [h]; omega
    · simp [h]

theorem space_not_mem_queryEscape (s : Str) : bSpace ∉ queryEscape s := by
  rw [mem_queryEscape]
  rintro ⟨c, _, h⟩
  exact escapeByte_no_space c h

theorem count_plus_encodePair (p : Str × Str) :
    (encodePair p).count bPlus = p.1.count bSpace + p.2.count bSpace := by
  have h : List.count bPlus [bEq] = 0 := by decide
  rw [encodePair, List.count_append, List.count_append, count_plus_queryEscape,
    count_plus_queryEscape, h, Nat.add_zero]

theorem count_stringsJoin (c : Byte) (sep : Str) (hc : c ∉ sep) (xs : List Str) :
    (stringsJoin xs sep).count c = (xs.map (List.count c)).sum := by
  cases xs with
  | nil => rfl
  | cons x rest =>
    rw [stringsJoin_cons, List.count_append, List.map_cons, List.sum_cons]
    congr 1
    induction rest with
    | nil => rfl
    | cons y ys ih =>
      simp [List.flatMap_cons, List.count_append, List.count_eq_zero_of_not_mem hc, ih]

theorem mem_stringsJoin (c : Byte) (sep : Str) (xs : List Str) (h : c ∈ stringsJoin xs sep) :
    c ∈ sep ∨ ∃ x ∈ xs, c ∈ x := by
  cases xs with
  | nil => simp [stringsJoin] at h
  | cons x rest =>
    rw [stringsJoin_cons] at h
    simp only [List.mem_append, List.mem_flatMap] at h
    rcases h with h | ⟨y, hy, h | h⟩
    · exact Or.inr ⟨x, by simp, h⟩
    · exact Or.inl h
    · exact Or.inr ⟨y, by simp [hy], h⟩

/-- C6, as the code has it: the escaping used for signing writes a space as `+`
and a `+` as `%2B`.  For every parameter map, consumer key, token, nonce and
timestamp, the parameter string contains no space, and its `+` characters are
exactly the spaces of the keys and values: it has as many `+` as they have
spaces. -/
theorem createParameterString_space_plus (P : List (Str × Str)) (n t : Str)
    (inp : CreateOAthSignatureInput) :
    queryEscape [bSpace] = [bPlus] ∧ queryEscape [bPlus] = str "%2B" ∧
    bSpace ∉ createParameterString P n t inp ∧
    (createParameterString P n t inp).count bPlus = spaceCount (P ++ oauthPairs n t inp) := by
  obtain ⟨L, hperm, hL⟩ := createParameterString_perm P n t inp
  refine ⟨by decide, by decide, ?_, ?_⟩
  · intro h
    rw [hL] at h
    rcases mem_stringsJoin _ _ _ h with h | ⟨x, hx, h⟩
    · revert h; decide
    · obtain ⟨p, -, rfl⟩ := List.mem_map.1 hx
      simp only [encodePair, List.mem_append] at h
      rcases h with (h | h) | h
      · exact space_not_mem_queryEscape _ h
      · revert h; decide
      · exact space_not_mem_queryEscape _ h
  · rw [hL, count_stringsJoin _ _ (by decide), List.map_map]
    have : (List.count bPlus ∘ encodePair)
        = fun p : Str × Str => p.1.count bSpace + p.2.count bSpace := by
      funext p
      exact count_plus_encodePair p
    rw [this]
    exact (hperm.map _).sum_eq

/-- Counterexample to C6: the value `x y` holds no `+`, and the parameter string
holds one, with no `%20`. -/
theorem createParameterString_space_counterexample :
    (∀ p ∈ [(str "a", str "x y")], bPlus ∉ p.1 ∧ bPlus ∉ p.2) ∧
    bPlus ∉ str "ck" ∧ bPlus ∉ str "tok" ∧ bPlus ∉ str "N" ∧ bPlus ∉ str "1" ∧
    bPlus ∈ createParameterString [(str "a", str "x y")] (str "N") (str "1")
      ⟨str "get", str "https://a/b", str "ck", str "tok", str "sk", []⟩ ∧
    createParameterString [(str "a", str "x y")] (str "N") (str "1")
      ⟨str "get", str "https://a/b", str "ck", str "tok", str "sk", []⟩
      = str ("a=x+y&oauth_consumer_key=ck&oauth_nonce=N&oauth_signature_method=HMAC-SHA1"
          ++ "&oauth_timestamp=1&oauth_token=tok&oauth_version=1.0") := by
  decide

theorem escapeByte_no_eq : ∀ c : Byte, bEq ∉ escapeByte c := by decide

theorem escapeByte_unreserved : ∀ c : Byte, shouldEscape c = false → escapeByte c = [c] := by
  decide

theorem eq_not_mem_queryEscape (s : Str) : bEq ∉ queryEscape s := by
  rw [mem_queryEscape]
  rintro ⟨c, _, h⟩
  exact escapeByte_no_eq c h

theorem queryEscape_unreserved (s : Str) (h : ∀ c ∈ s, shouldEscape c = false) :
    queryEscape s = s := by
  induction s with
  | nil => rfl
  | cons c rest ih =>
    rw [queryEscape_cons, escapeByte_unreserved c (h c (by simp)),
      ih (fun d hd => h d (List.mem_cons_of_mem _ hd))]
    rfl

theorem stringsJoin_eq_intercalate (xs : List Str) (sep : Str) :
    stringsJoin xs sep = sep.intercalate xs := by
  induction xs with
  | nil => rfl
  | cons x rest ih =>
    cases rest with
    | nil => simp [stringsJoin, List.intercalate]
    | cons y ys =>
      rw [stringsJoin, ih]
      · simp [List.intercalate, List.intersperse, List.append_assoc]
      · simp

theorem amp_not_mem_encodePair (p : Str × Str) : bAmp ∉ encodePair p := by
  simp only [encodePair, List.mem_append, not_or]
  exact ⟨⟨amp_not_mem_queryEscape _, by decide⟩, amp_not_mem_queryEscape _⟩

theorem takeWhile_encodePair (p : Str × Str) :
    (encodePair p).takeWhile (· ≠ bEq) = queryEscape p.1 := by
  have h : ∀ a ∈ queryEscape p.1, (decide (a ≠ bEq)) = true := by
    intro a ha
    have : a ≠ bEq := fun hh => eq_not_mem_queryEscape p.1 (hh ▸ ha)
    simpa using this
  rw [encodePair, List.append_assoc, List.takeWhile_append_of_pos h]
  simp

/-- The encoded keys of a join of encoded entries. -/
theorem encodedKeys_join (L : List (Str × Str)) (h : L ≠ []) :
    encodedKeys (stringsJoin (L.map encodePair) [bAmp]) = L.map fun p => queryEscape p.1 := by
  rw [encodedKeys, stringsJoin_eq_intercalate, List.splitOn_intercalate]
  · rw [List.map_map]
    apply List.map_congr_left
    intro p _
    exact takeWhile_encodePair p
  · intro l hl
    obtain ⟨p, -, rfl⟩ := List.mem_map.1 hl
    exact amp_not_mem_encodePair p
  · simpa using h

theorem oauthKeys_unescaped (n t : Str) (inp : CreateOAthSignatureInput) :
    ∀ k ∈ (oauthPairs n t inp).map Prod.fst, queryEscape k = id k := by
  rw [oauthPairs_keys]
  decide

/-- C5, as the code has it: the entries are sorted by key before
percent-encoding.  For a caller map with distinct keys and no `oauth_` key, the
encoded keys of the parameter string, read left to right, are the escapes of the
caller's and the six injected keys taken in strictly ascending byte order of the
unescaped keys; they are themselves in ascending order when no caller key holds
a byte that is escaped. -/
theorem createParameterString_keys_sorted (P : List (Str × Str)) (n t : Str)
    (inp : CreateOAthSignatureInput)
    (hnd : (P.map Prod.fst).Nodup) (hno : ∀ p ∈ P, isOAuthKey p.1 = false) :
    ∃ ks : List Str, ks.Perm (P.map Prod.fst ++ (oauthPairs n t inp).map Prod.fst) ∧
      ks.Sorted (· < ·) ∧
      encodedKeys (createParameterString P n t inp) = ks.map queryEscape ∧
      ((∀ p ∈ P, ∀ c ∈ p.1, shouldEscape c = false) →
        (encodedKeys (createParameterString P n t inp)).Sorted (· < ·)) := by
  have hk := nodup_allKeys P n t inp hnd hno
  have hperm : (((P ++ oauthPairs n t inp).insertionSort fun a b => a.1 ≤ b.1).map Prod.fst).Perm
      (P.map Prod.fst ++ (oauthPairs n t inp).map Prod.fst) := by
    rw [← List.map_append]
    exact (List.perm_insertionSort _ _).map _
  have hsorted := List.pairwise_map.2 (strict_byKey _ hk)
  have hne : (P ++ oauthPairs n t inp).insertionSort (fun a b => a.1 ≤ b.1) ≠ [] := by
    intro h
    have := congrArg List.length h
    simp [List.length_insertionSort, oauthPairs] at this
  have hkeys : encodedKeys (createParameterString P n t inp)
      = (((P ++ oauthPairs n t inp).insertionSort fun a b => a.1 ≤ b.1).map Prod.fst).map
          queryEscape := by
    rw [createParameterString_sorted P n t inp hnd hno, encodedKeys_join _ hne, List.map_map]
    rfl
  refine ⟨_, hperm, hsorted, hkeys, ?_⟩
  intro hun
  rw [hkeys]
  have hid : (((P ++ oauthPairs n t inp).insertionSort fun a b => a.1 ≤ b.1).map Prod.fst).map
      queryEscape = ((P ++ oauthPairs n t inp).insertionSort fun a b => a.1 ≤ b.1).map Prod.fst := by
    conv_rhs => rw [← List.map_id (List.map Prod.fst _)]
    apply List.map_congr_left
    intro k hkm
    have hkm2 := hperm.mem_iff.1 hkm
    rcases List.mem_append.1 hkm2 with h1 | h2
    · obtain ⟨p, hp, rfl⟩ := List.mem_map.1 h1
      exact queryEscape_unreserved _ (hun p hp)
    · exact oauthKeys_unescaped n t inp k h2
  rw [hid]
  exact hsorted

/-- Witness of C5: the encoded keys of a map with the keys `b` and `a`. -/
theorem createParameterString_keys_sorted_witness :
    ∃ ks : List Str,
      ks.Perm ([(str "b", str "2"), (str "a", str "x y")].map Prod.fst
        ++ (oauthPairs (str "N") (str "1")
          ⟨str "get", str "https://a/b", str "ck", str "tok", str "sk", []⟩).map Prod.fst) ∧
      ks.Sorted (· < ·) ∧
      encodedKeys (createParameterString [(str "b", str "2"), (str "a", str "x y")] (str "N")
        (str "1") ⟨str "get", str "https://a/b", str "ck", str "tok", str "sk", []⟩)
        = ks.map queryEscape ∧
      ((∀ p ∈ [(str "b", str "2"), (str "a", str "x y")], ∀ c ∈ p.1, shouldEscape c = false) →
        (encodedKeys (createParameterString [(str "b", str "2"), (str "a", str "x y")] (str "N")
          (str "1") ⟨str "get", str "https://a/b", str "ck", str "tok", str "sk", []⟩)).Sorted
          (· < ·)) :=
  createParameterString_keys_sorted [(str "b", str "2"), (str "a", str "x y")] (str "N") (str "1")
    ⟨str "get", str "https://a/b", str "ck", str "tok", str "sk", []⟩ (by decide) (by decide)

/-- Counterexample to C5: the caller key `|` sorts after the `oauth_` keys, and
its encoding `%7C` is written last, after `oauth_version`, although it is
smaller than it: the encoded keys are not in ascending order. -/
theorem encodedKeys_counterexample :
    ([(str "|", str "x")].map Prod.fst).Nodup ∧
    (∀ p ∈ [(str "|", str "x")], isOAuthKey p.1 = false) ∧
    encodedKeys (createParameterString [(str "|", str "x")] (str "N") (str "1")
        ⟨str "get", str "https://a/b", str "ck", str "tok", str "sk", []⟩)
      = [str "oauth_consumer_key", str "oauth_nonce", str "oauth_signature_method",
         str "oauth_timestamp", str "oauth_token", str "oauth_version", str "%7C"] ∧
    ¬ (encodedKeys (createParameterString [(str "|", str "x")] (str "N") (str "1")
        ⟨str "get", str "https://a/b", str "ck", str "tok", str "sk", []⟩)).Sorted (· ≤ ·) := by
  decide

/-! ## `strings.Replace` deleting a byte -/

theorem stringsReplaceGo_delete (c : Byte) (s : Str) (n : Nat) (h : s.length ≤ n) :
    stringsReplaceGo [c] [] 0 n s = s.filter (· ≠ c) := by
  induction s generalizing n with
  | nil => simp [stringsReplaceGo]
  | cons d cs ih =>
    cases n with
    | zero => simp at h
    | succ m =>
      have hm : cs.length ≤ m := by simpa using h
      by_cases hd : c = d
      · subst hd
        simp [stringsReplaceGo, List.isPrefixOf, ih m hm]
      · have hd2 : ¬ d = c := fun hh => hd hh.symm
        simp [stringsReplaceGo, List.isPrefixOf, hd, hd2, ih (m + 1) (by omega)]

theorem stringsReplace_delete (c : Byte) (s : Str) :
    stringsReplace s [c] [] (-1) = s.filter (· ≠ c) := by
  simp [stringsReplace, stringsReplaceGo_delete]

/-! ## base64 -/

theorem b64Digit_isB64Digit_fin : ∀ n : Fin 64, isB64Digit (b64Digit n.val) = true := by decide

theorem b64Digit_isAlnum_fin : ∀ n : Fin 62, isAlnum (b64Digit n.val) = true := by decide

theorem b64Digit_isB64Digit (n : Nat) (h : n < 64) : isB64Digit (b64Digit n) = true :=
  b64Digit_isB64Digit_fin ⟨n, h⟩

theorem b64Digit_isAlnum (n : Nat) (h : n < 62) : isAlnum (b64Digit n) = true :=
  b64Digit_isAlnum_fin ⟨n, h⟩

theorem isAlnum_of_isB64Digit : ∀ c : Byte, isB64Digit c = true → c ≠ bPlus → c ≠ bSlash →
    isAlnum c = true := by decide

theorem isAlnum_ne : ∀ c : Byte, isAlnum c = true → c ≠ bPlus ∧ c ≠ bSlash ∧ c ≠ bEq := by
  decide

theorem isB64Digit_ne_eq : ∀ c : Byte, isB64Digit c = true → c ≠ bEq := by decide

/-- Every byte of a base64 encoding is a digit of the alphabet or the pad. -/
theorem base64Encode_bytes : ∀ (s : Str) (c : Byte), c ∈ base64Encode s →
    isB64Digit c = true ∨ c = bEq
  | [], c, h => by simp [base64Encode] at h
  | [a], c, h => by
    simp only [base64Encode, List.mem_cons, List.mem_singleton, List.not_mem_nil, or_false] at h
    rcases h with h | h | h | h
    · exact Or.inl (h ▸ b64Digit_isB64Digit _ (by omega))
    · exact Or.inl (h ▸ b64Digit_isB64Digit _ (by omega))
    · exact Or.inr h
    · exact Or.inr h
  | [a, b], c, h => by
    simp only [base64Encode, List.mem_cons, List.mem_singleton, List.not_mem_nil, or_false] at h
    rcases h with h | h | h | h
    · exact Or.inl (h ▸ b64Digit_isB64Digit _ (by omega))
    · exact Or.inl (h ▸ b64Digit_isB64Digit _ (by omega))
    · exact Or.inl (h ▸ b64Digit_isB64Digit _ (by omega))
    · exact Or.inr h
  | a :: b :: d :: rest, c, h => by
    simp only [base64Encode, List.mem_cons] at h
    rcases h with h | h | h | h | h
    · exact Or.inl (h ▸ b64Digit_isB64Digit _ (by omega))
    · exact Or.inl (h ▸ b64Digit_isB64Digit _ (by omega))
    · exact Or.inl (h ▸ b64Digit_isB64Digit _ (by omega))
    · exact Or.inl (h ▸ b64Digit_isB64Digit _ (by omega))
    · exact base64Encode_bytes rest c h

/-- The length of a base64 encoding: four bytes for every group of three. -/
theorem base64Encode_length : ∀ s : Str, (base64Encode s).length = 4 * ((s.length + 2) / 3)
  | [] => by simp [base64Encode]
  | [a] => by simp [base64Encode]
  | [a, b] => by simp [base64Encode]
  | a :: b :: d :: rest => by
    simp only [base64Encode, List.length_cons, base64Encode_length rest]
    omega

/-- The encoding of an input of length 2 modulo 3 ends in three digits and one
pad; the last digit carries four bits, so it is a letter or a digit. -/
theorem base64Encode_tail : ∀ s : Str, s.length % 3 = 2 →
    ∃ pre : Str, ∃ x : Byte, base64Encode s = pre ++ [x, bEq] ∧ isAlnum x = true ∧
      ∀ c ∈ pre, isB64Digit c = true
  | [], h => by simp at h
  | [a], h => by simp at h
  | [a, b], _ => by
    refine ⟨[b64Digit (a.val / 4), b64Digit (a.val % 4 * 16 + b.val / 16)],
      b64Digit (b.val % 16 * 4), by simp [base64Encode], b64Digit_isAlnum _ (by omega), ?_⟩
    intro c hc
    simp only [List.mem_cons, List.mem_singleton, List.not_mem_nil, or_false] at hc
    rcases hc with h | h
    · exact h ▸ b64Digit_isB64Digit _ (by omega)
    · exact h ▸ b64Digit_isB64Digit _ (by omega)
  | a :: b :: d :: rest, h => by
    have hr : rest.length % 3 = 2 := by
      simp only [List.length_cons] at h
      omega
    obtain ⟨pre, x, hpre, hx, hall⟩ := base64Encode_tail rest hr
    refine ⟨b64Digit (a.val / 4) :: b64Digit (a.val % 4 * 16 + b.val / 16)
      :: b64Digit (b.val % 16 * 4 + d.val / 64) :: b64Digit (d.val % 64) :: pre, x,
      by simp [base64Encode, hpre], hx, ?_⟩
    intro c hc
    simp only [List.mem_cons] at hc
    rcases hc with h | h | h | h | h
    · exact h ▸ b64Digit_isB64Digit _ (by omega)
    · exact h ▸ b64Digit_isB64Digit _ (by omega)
    · exact h ▸ b64Digit_isB64Digit _ (by omega)
    · exact h ▸ b64Digit_isB64Digit _ (by omega)
    · exact hall c h

theorem generateOAthNonce_eq (key : Str) :
    generateOAthNonce (key, none)
      = ((base64Encode key).filter (fun c => c ≠ bPlus ∧ c ≠ bSlash ∧ c ≠ bEq), none) := by
  have hp : str "+" = [bPlus] := by decide
  have hs : str "/" = [bSlash] := by decide
  have he : str "=" = [bEq] := by decide
  simp only [generateOAthNonce, List.foldl_cons, List.foldl_nil, hp, hs, he,
    stringsReplace_delete, List.filter_filter]
  congr 2
  funext c
  simp only [Bool.decide_and, Bool.and_assoc, Bool.and_comm, Bool.and_left_comm]

/-- The nonce of a 32-byte buffer: the encoding is 42 digits, a letter or digit
and a pad, and the nonce is what the filter leaves of the 42 digits, then that
letter or digit. -/
theorem generateOAthNonce_tail (key : Str) (hlen : key.length = 32) :
    ∃ pre : Str, ∃ x : Byte, base64Encode key = pre ++ [x, bEq] ∧ isAlnum x = true ∧
      pre.length = 42 ∧
      (generateOAthNonce (key, none)).1
        = pre.filter (fun c => c ≠ bPlus ∧ c ≠ bSlash ∧ c ≠ bEq) ++ [x] := by
  obtain ⟨pre, x, hpre, hx, -⟩ := base64Encode_tail key (by rw [hlen])
  have hx3 : x ≠ bPlus ∧ x ≠ bSlash ∧ x ≠ bEq := isAlnum_ne x hx
  have hplen : pre.length = 42 := by
    have h := base64Encode_length key
    rw [hpre, hlen] at h
    simp only [List.length_append, List.length_cons, List.length_nil] at h
    omega
  refine ⟨pre, x, hpre, hx, hplen, ?_⟩
  rw [generateOAthNonce_eq]
  simp only
  rw [hpre, List.filter_append]
  congr 1
  simp [List.filter_cons, hx3]

/-- C7: for 32 random bytes the nonce is their standard base64 encoding with
every `+`, `/` and `=` deleted; it consists of ASCII letters and digits, has
length at most 43 and is not empty, the encoding ending in a digit that is
neither `+` nor `/`, followed by one `=`. -/
theorem generateOAthNonce_spec (key : Str) (hlen : key.length = 32) :
    generateOAthNonce (key, none)
      = ((base64Encode key).filter (fun c => c ≠ bPlus ∧ c ≠ bSlash ∧ c ≠ bEq), none) ∧
    (∀ c ∈ (generateOAthNonce (key, none)).1, isAlnum c = true) ∧
    (generateOAthNonce (key, none)).1.length ≤ 43 ∧
    (generateOAthNonce (key, none)).1 ≠ [] ∧
    (∃ pre : Str, ∃ x : Byte, base64Encode key = pre ++ [x, bEq] ∧ x ≠ bPlus ∧ x ≠ bSlash) := by
  obtain ⟨pre, x, hpre, hx, hplen, hnonce⟩ := generateOAthNonce_tail key hlen
  have hx3 : x ≠ bPlus ∧ x ≠ bSlash ∧ x ≠ bEq := isAlnum_ne x hx
  refine ⟨generateOAthNonce_eq key, ?_, ?_, ?_, ⟨pre, x, hpre, hx3.1, hx3.2.1⟩⟩
  · intro c hc
    rw [generateOAthNonce_eq] at hc
    simp only [List.mem_filter, decide_eq_true_eq] at hc
    obtain ⟨hmem, h1, h2, h3⟩ := hc
    rcases base64Encode_bytes key c hmem with h | h
    · exact isAlnum_of_isB64Digit c h h1 h2
    · exact absurd h h3
  · rw [hnonce]
    simp only [List.length_append, List.length_singleton]
    have := List.length_filter_le (fun c => decide (c ≠ bPlus ∧ c ≠ bSlash ∧ c ≠ bEq)) pre
    omega
  · rw [hnonce]
    simp

/-- Witness of C7: 32 bytes `0xFF` encode to 42 `/`, an `8` and a `=`; the nonce
is `8`. -/
theorem generateOAthNonce_spec_witness :
    (generateOAthNonce (List.replicate 32 (byteOf 255), none)).1 = str "8" ∧
    (generateOAthNonce (List.replicate 32 (byteOf 255), none)).1.length ≤ 43 ∧
    (generateOAthNonce (List.replicate 32 (byteOf 255), none)).1 ≠ [] :=
  ⟨by decide,
   (generateOAthNonce_spec (List.replicate 32 (byteOf 255)) (by decide)).2.2.1,
   (generateOAthNonce_spec (List.replicate 32 (byteOf 255)) (by decide)).2.2.2.1⟩

theorem sha1_length (msg : Str) : (sha1 msg).length = 20 := by
  simp [sha1, be32]

theorem hmacSHA1_length (key data : Str) : (hmacSHA1 key data).length = 20 := by
  simp only [hmacSHA1]
  exact sha1_length _

theorem isB64Digit_of_isAlnum : ∀ c : Byte, isAlnum c = true → isB64Digit c = true := by decide

/-- The base64 encoding of 20 bytes: 27 digits and one pad. -/
theorem base64Encode_twenty (d : Str) (h : d.length = 20) :
    (base64Encode d).length = 28 ∧
    ∃ pre : Str, base64Encode d = pre ++ [bEq] ∧ pre.length = 27 ∧
      ∀ c ∈ pre, isB64Digit c = true := by
  have hl := base64Encode_length d
  rw [h] at hl
  obtain ⟨pre, x, hpre, hx, hall⟩ := base64Encode_tail d (by rw [h])
  refine ⟨hl, pre ++ [x], by simp [hpre], ?_, ?_⟩
  · rw [hpre] at hl
    simp only [List.length_append, List.length_cons, List.length_nil] at hl ⊢
    omega
  · intro c hc
    rcases List.mem_append.1 hc with h1 | h1
    · exact hall c h1
    · rw [List.mem_singleton.1 h1]
      exact isB64Digit_of_isAlnum x hx

/-- C8: with the hash write of the standard library, which does not fail,
`calculateSignature` returns no error and the base64 encoding of the 20-byte
HMAC-SHA1 digest of the base string under the key, the empty key included: 28
bytes, 27 digits of the base64 alphabet and one `=`; the result is determined
by the base string and the key. -/
theorem calculateSignature_spec (base key : Str) :
    (calculateSignature hashWriteStd base key).2 = none ∧
    (calculateSignature hashWriteStd base key).1 = base64Encode (hmacSHA1 key base) ∧
    (hmacSHA1 key base).length = 20 ∧
    (calculateSignature hashWriteStd base key).1.length = 28 ∧
    (∃ pre : Str, (calculateSignature hashWriteStd base key).1 = pre ++ [bEq] ∧
      pre.length = 27 ∧ ∀ c ∈ pre, isB64Digit c = true) ∧
    (∀ w : Str → Str → Option Error, w key base = none →
      calculateSignature w base key = calculateSignature hashWriteStd base key) := by
  have hv : calculateSignature hashWriteStd base key = (base64Encode (hmacSHA1 key base), none) := by
    simp [calculateSignature, hashWriteStd]
  obtain ⟨h28, hpre⟩ := base64Encode_twenty _ (hmacSHA1_length key base)
  rw [hv]
  refine ⟨rfl, rfl, hmacSHA1_length key base, h28, hpre, ?_⟩
  intro w hw
  simp [calculateSignature, hw]

theorem decimalGo_ne_nil (fuel n : Nat) (acc : Str) (h : acc ≠ [] ∨ 0 < fuel) :
    decimalGo fuel n acc ≠ [] := by
  induction fuel generalizing n acc with
  | zero =>
    rcases h with h | h
    · simpa [decimalGo] using h
    · omega
  | succ f ih =>
    simp only [decimalGo]
    split
    · simp
    · exact ih _ _ (Or.inl (by simp))

theorem fmtInt_ne_nil (n : Int) : fmtInt n ≠ [] := by
  unfold fmtInt
  split
  · simp
  · exact decimalGo_ne_nil _ _ _ (Or.inr (by omega))

/-- The five fields of a successful run, from the nonce and the timestamp. -/
theorem CreateOAuthSignature_eq (env : Env) (inp : CreateOAthSignatureInput) :
    CreateOAuthSignature env inp =
      match env.randRead.2 with
      | some err => (none, some err)
      | none =>
        match env.hashWrite inp.SigningKey
            (createSignatureBase env.toUpperUnicode inp.HTTPMethod
              (endpointBase inp.RawEndpoint)
              (createParameterString inp.ParameterMap (generateOAthNonce env.randRead).1
                (fmtInt env.nowUnix) inp)) with
        | some err => (none, some err)
        | none =>
          (some
            { OAuthNonce := (generateOAthNonce env.randRead).1
              OAuthSignatureMethod := OAuthSignatureMethodHMACSHA1
              OAuthTimestamp := fmtInt env.nowUnix
              OAuthVersion := OAuthVersion10
              OAuthSignature := base64Encode (hmacSHA1 inp.SigningKey
                (createSignatureBase env.toUpperUnicode inp.HTTPMethod
                  (endpointBase inp.RawEndpoint)
                  (createParameterString inp.ParameterMap (generateOAthNonce env.randRead).1
                    (fmtInt env.nowUnix) inp))) }, none) := by
  unfold CreateOAuthSignature
  cases hr : env.randRead.2 with
  | some err => simp [generateOAthNonce, hr]
  | none =>
    have hg : generateOAthNonce env.randRead = ((generateOAthNonce env.randRead).1, none) := by
      simp [generateOAthNonce, hr]
    rw [hg]
    simp only
    cases hw : env.hashWrite inp.SigningKey
        (createSignatureBase env.toUpperUnicode inp.HTTPMethod (endpointBase inp.RawEndpoint)
          (createParameterString inp.ParameterMap (generateOAthNonce env.randRead).1
            (fmtInt env.nowUnix) inp)) with
    | some err => simp [calculateSignature, hw]
    | none => simp [calculateSignature, hw]

/-- C3: with the random source yielding the nonce `n` and the clock the
timestamp `t` (decimal Unix seconds), a successful `CreateOAuthSignature`
returns the nonce `n`, the timestamp `t`, the method `HMAC-SHA1`, the version
`1.0` and as signature the base64 encoding of the HMAC-SHA1, under the signing
key, of the signature base built from the method, the base of the raw endpoint
and the parameter string of the same `n` and `t`; and the run succeeds, with a
nil error, whenever the random read and the hash write do not fail. -/
theorem CreateOAuthSignature_signs_returned (env : Env) (inp : CreateOAthSignatureInput) :
    (∀ out : CreateOAthSignatureOutput, (CreateOAuthSignature env inp).1 = some out →
      out.OAuthNonce = (generateOAthNonce env.randRead).1 ∧
      out.OAuthTimestamp = fmtInt env.nowUnix ∧
      out.OAuthSignatureMethod = str "HMAC-SHA1" ∧
      out.OAuthVersion = str "1.0" ∧
      out.OAuthSignature = base64Encode (hmacSHA1 inp.SigningKey
        (createSignatureBase env.toUpperUnicode inp.HTTPMethod (endpointBase inp.RawEndpoint)
          (createParameterString inp.ParameterMap out.OAuthNonce out.OAuthTimestamp inp)))) ∧
    (env.randRead.2 = none →
      env.hashWrite inp.SigningKey
        (createSignatureBase env.toUpperUnicode inp.HTTPMethod (endpointBase inp.RawEndpoint)
          (createParameterString inp.ParameterMap (generateOAthNonce env.randRead).1
            (fmtInt env.nowUnix) inp)) = none →
      ∃ out : CreateOAthSignatureOutput, CreateOAuthSignature env inp = (some out, none)) := by
  rw [CreateOAuthSignature_eq]
  constructor
  · intro out h
    cases hr : env.randRead.2 with
    | some err => simp [hr] at h
    | none =>
      cases hw : env.hashWrite inp.SigningKey
          (createSignatureBase env.toUpperUnicode inp.HTTPMethod (endpointBase inp.RawEndpoint)
            (createParameterString inp.ParameterMap (generateOAthNonce env.randRead).1
              (fmtInt env.nowUnix) inp)) with
      | some err => simp [hr, hw] at h
      | none =>
        simp only [hr, hw, Option.some.injEq] at h
        subst h
        exact ⟨rfl, rfl, rfl, rfl, rfl⟩
  · intro hr hw
    simp only [hr, hw]
    exact ⟨_, rfl⟩

/-- Witness of C3: 32 random bytes `0xFF`, the clock at 1700000000 and the hash
write of the standard library; the run succeeds with the nonce `8`. -/
theorem CreateOAuthSignature_signs_returned_witness :
    (generateOAthNonce (List.replicate 32 (byteOf 255), none)).1 = str "8" ∧
    fmtInt 1700000000 = str "1700000000" ∧
    ∃ out : CreateOAthSignatureOutput,
      CreateOAuthSignature ⟨id, (List.replicate 32 (byteOf 255), none), 1700000000, hashWriteStd⟩
        ⟨str "get", str "https://a/b?x=1", str "ck", str "tok", str "sk", [(str "x", str "1")]⟩
        = (some out, none) :=
  ⟨by decide, by decide,
   (CreateOAuthSignature_signs_returned
      ⟨id, (List.replicate 32 (byteOf 255), none), 1700000000, hashWriteStd⟩
      ⟨str "get", str "https://a/b?x=1", str "ck", str "tok", str "sk", [(str "x", str "1")]⟩).2
      rfl rfl⟩

/-- C9: `CreateOAuthSignature` is all-or-nothing.  When the random read fails, or
when it succeeds and the hash write fails, the output is nil and the error is
that error; whenever the output is not nil the error is nil and the five fields
are populated: a non-empty nonce, the method `HMAC-SHA1`, a non-empty
timestamp, the version `1.0` and a signature of 28 bytes. -/
theorem CreateOAuthSignature_all_or_nothing (env : Env) (inp : CreateOAthSignatureInput)
    (hbuf : env.randRead.1.length = 32) :
    (∀ err : Error, env.randRead.2 = some err →
      CreateOAuthSignature env inp = (none, some err)) ∧
    (∀ err : Error, env.randRead.2 = none →
      env.hashWrite inp.SigningKey
        (createSignatureBase env.toUpperUnicode inp.HTTPMethod (endpointBase inp.RawEndpoint)
          (createParameterString inp.ParameterMap (generateOAthNonce env.randRead).1
            (fmtInt env.nowUnix) inp)) = some err →
      CreateOAuthSignature env inp = (none, some err)) ∧
    (∀ out : CreateOAthSignatureOutput, (CreateOAuthSignature env inp).1 = some out →
      (CreateOAuthSignature env inp).2 = none ∧
      out.OAuthNonce ≠ [] ∧ out.OAuthSignatureMethod = str "HMAC-SHA1" ∧
      out.OAuthTimestamp ≠ [] ∧ out.OAuthVersion = str "1.0" ∧
      out.OAuthSignature.length = 28) := by
  rw [CreateOAuthSignature_eq]
  refine ⟨fun err hr => by simp [hr], fun err hr hw => by simp only [hr, hw], ?_⟩
  intro out h
  cases hr : env.randRead.2 with
  | some err => simp [hr] at h
  | none =>
    cases hw : env.hashWrite inp.SigningKey
        (createSignatureBase env.toUpperUnicode inp.HTTPMethod (endpointBase inp.RawEndpoint)
          (createParameterString inp.ParameterMap (generateOAthNonce env.randRead).1
            (fmtInt env.nowUnix) inp)) with
    | some err => simp [hr, hw] at h
    | none =>
      simp only [hr, hw, Option.some.injEq] at h
      subst h
      have hrr : env.randRead = (env.randRead.1, none) := by
        rw [← hr]
      refine ⟨rfl, ?_, rfl, fmtInt_ne_nil _, rfl, ?_⟩
      · obtain ⟨pre, x, -, -, -, hnonce⟩ := generateOAthNonce_tail env.randRead.1 hbuf
        rw [hrr, hnonce]
        simp
      · exact (base64Encode_twenty _ (hmacSHA1_length _ _)).1

/-- Witness of C9: a failing random source gives a nil output and its error. -/
theorem CreateOAuthSignature_all_or_nothing_witness :
    CreateOAuthSignature
        ⟨id, (List.replicate 32 (byteOf 0), some ⟨"entropy"⟩), 1700000000, hashWriteStd⟩
        ⟨str "get", str "https://a/b?x=1", str "ck", str "tok", str "sk", [(str "x", str "1")]⟩
      = (none, some ⟨"entropy"⟩) :=
  (CreateOAuthSignature_all_or_nothing
    ⟨id, (List.replicate 32 (byteOf 0), some ⟨"entropy"⟩), 1700000000, hashWriteStd⟩
    ⟨str "get", str "https://a/b?x=1", str "ck", str "tok", str "sk", [(str "x", str "1")]⟩
    (by decide)).1 ⟨"entropy"⟩ rfl

/-! ## `strings.Split` at a single byte -/

theorem stringsSplitGo_nil (b : Byte) (acc : Str) :
    stringsSplitGo [b] 0 acc [] = [acc.reverse] := by
  simp [stringsSplitGo]

theorem stringsSplitGo_cons (b c : Byte) (acc cs : Str) :
    stringsSplitGo [b] 0 acc (c :: cs)
      = if c = b then acc.reverse :: stringsSplitGo [b] 0 [] cs
        else stringsSplitGo [b] 0 (c :: acc) cs := by
  by_cases h : c = b
  · subst h
    simp [stringsSplitGo, List.isPrefixOf]
  · have h2 : ¬ b = c := fun hh => h hh.symm
    simp [stringsSplitGo, List.isPrefixOf, h, h2]

theorem stringsSplitGo_of_not_mem (b : Byte) (s acc : Str) (h : b ∉ s) :
    stringsSplitGo [b] 0 acc s = [acc.reverse ++ s] := by
  induction s generalizing acc with
  | nil => simp [stringsSplitGo_nil]
  | cons c cs ih =>
    have hc : ¬ c = b := fun hh => h (hh ▸ List.mem_cons_self _ _)
    rw [stringsSplitGo_cons, if_neg hc, ih _ (fun hm => h (List.mem_cons_of_mem _ hm))]
    simp

theorem stringsSplitGo_append (b : Byte) (x y acc : Str) (h : b ∉ x) :
    stringsSplitGo [b] 0 acc (x ++ b :: y)
      = (acc.reverse ++ x) :: stringsSplitGo [b] 0 [] y := by
  induction x generalizing acc with
  | nil => simp [stringsSplitGo_cons]
  | cons c cs ih =>
    have hc : ¬ c = b := fun hh => h (hh ▸ List.mem_cons_self _ _)
    rw [List.cons_append, stringsSplitGo_cons, if_neg hc,
      ih _ (fun hm => h (List.mem_cons_of_mem _ hm))]
    simp

/-- A string without the separator is its own single piece. -/
theorem stringsSplit_of_not_mem (b : Byte) (s : Str) (h : b ∉ s) :
    stringsSplit s [b] = [s] := by
  simp [stringsSplit, stringsSplitGo_of_not_mem b s [] h]

/-- The first piece ends at the first separator. -/
theorem stringsSplit_append (b : Byte) (x y : Str) (h : b ∉ x) :
    stringsSplit (x ++ b :: y) [b] = x :: stringsSplit y [b] := by
  simp [stringsSplit, stringsSplitGo_append b x y [] h]

/-- A string is a part without the byte `b`, alone or followed by `b` and a rest. -/
theorem cut_at (b : Byte) (s : Str) :
    b ∉ s ∨ ∃ x y, s = x ++ b :: y ∧ b ∉ x := by
  by_cases h : b ∈ s
  · obtain ⟨pre, rest, hs, hpre, -⟩ := (stringsIndexGo_single b s 0).1 h
    exact Or.inr ⟨pre, rest, hs, hpre⟩
  · exact Or.inl h

theorem stringsSplit_length_aux (b : Byte) (n : Nat) :
    ∀ s : Str, s.length ≤ n → (stringsSplit s [b]).length = s.count b + 1 := by
  induction n with
  | zero =>
    intro s hs
    have : s = [] := List.length_eq_zero.1 (by omega)
    subst this
    rfl
  | succ m ih =>
    intro s hs
    rcases cut_at b s with h | ⟨x, y, hxy, hx⟩
    · rw [stringsSplit_of_not_mem b s h, List.count_eq_zero_of_not_mem h]
      rfl
    · subst hxy
      have hy : y.length ≤ m := by
        simp only [List.length_append, List.length_cons] at hs
        omega
      rw [stringsSplit_append b x y hx, List.length_cons, ih y hy]
      simp [List.count_append, List.count_eq_zero_of_not_mem hx]

/-- The number of pieces is the number of separators plus one. -/
theorem stringsSplit_length (b : Byte) (s : Str) :
    (stringsSplit s [b]).length = s.count b + 1 :=
  stringsSplit_length_aux b s.length s (Nat.le_refl _)

theorem takeWhile_ne_append (b : Byte) (x r : Str) (h : b ∉ x) :
    (x ++ r).takeWhile (· ≠ b) = x ++ r.takeWhile (· ≠ b) := by
  induction x with
  | nil => rfl
  | cons c cs ih =>
    have hc : ¬ c = b := fun hh => h (hh ▸ List.mem_cons_self _ _)
    have ih2 := ih (fun hm => h (List.mem_cons_of_mem _ hm))
    rw [List.cons_append, List.takeWhile_cons, ih2]
    simp [hc]

/-- The first piece is the text before the first separator. -/
theorem stringsSplit_head (b : Byte) (s : Str) :
    (stringsSplit s [b]).getD 0 [] = s.takeWhile (· ≠ b) := by
  rcases cut_at b s with h | ⟨x, y, hs, hx⟩
  · rw [stringsSplit_of_not_mem b s h]
    have := takeWhile_ne_append b s [] h
    simp only [List.append_nil, List.takeWhile_nil] at this
    rw [this]
    rfl
  · subst hs
    rw [stringsSplit_append b x y hx, takeWhile_ne_append b x (b :: y) hx]
    simp [List.takeWhile_cons]

/-! ## The pairs of `Endpoint.Detail` -/

/-- A pair without `=` is stored under itself with the empty value. -/
theorem detailPair_no_eq (p : Str) (h : bEq ∉ p) : detailPair p = .ok (p, []) := by
  simp [detailPair, stringsSplit_of_not_mem bEq p h]

/-- A pair `k=v` with one `=` is stored under `k` with the unescaped `v`, or
fails with the error of the unescaping. -/
theorem detailPair_one_eq (k v : Str) (hk : bEq ∉ k) (hv : bEq ∉ v) :
    detailPair (k ++ bEq :: v)
      = match queryUnescape v with
        | .error err => .error err
        | .ok t => .ok (k, t) := by
  have hs : stringsSplit (k ++ bEq :: v) [bEq] = [k, v] := by
    rw [stringsSplit_append bEq k v hk, stringsSplit_of_not_mem bEq v hv]
  have hl : [k, v].length = 2 := rfl
  have h1 : [k, v].getD 1 [] = v := rfl
  have h0 : [k, v].getD 0 [] = k := rfl
  simp only [detailPair, hs, hl, if_true, h1, h0]

/-- A pair with two or more `=` is stored under the text before the first `=`
with the empty value. -/
theorem detailPair_many_eq (q : Str) (h : 2 ≤ q.count bEq) :
    detailPair q = .ok (q.takeWhile (· ≠ bEq), []) := by
  have hl := stringsSplit_length bEq q
  have hne : ¬ (stringsSplit q [bEq]).length = 2 := by omega
  simp only [detailPair, if_neg hne, stringsSplit_head]

/-- The key a pair is stored under is the text before its first `=`. -/
theorem detailPair_key (q : Str) (kv : Str × Str) (h : detailPair q = .ok kv) :
    kv.1 = q.takeWhile (· ≠ bEq) := by
  unfold detailPair at h
  simp only at h
  split at h
  · split at h
    · cases h
    · cases h
      exact stringsSplit_head bEq q
  · cases h
    exact stringsSplit_head bEq q

theorem lookup_set_self (m : StrMap) (k v : Str) : (StrMap.set m k v).lookup k = some v := by
  induction m with
  | nil => simp [StrMap.set, List.lookup]
  | cons e rest ih =>
    obtain ⟨k1, v1⟩ := e
    by_cases h : k1 = k
    · subst h
      simp [StrMap.set, List.lookup]
    · have hb : (k == k1) = false := by simpa using fun hh : k = k1 => h hh.symm
      simp only [StrMap.set, if_neg h, List.lookup, hb]
      exact ih

theorem lookup_set_other (m : StrMap) (k k1 v : Str) (h : k ≠ k1) :
    (StrMap.set m k1 v).lookup k = m.lookup k := by
  induction m with
  | nil =>
    have hb : (k == k1) = false := by simpa using h
    simp [StrMap.set, List.lookup, hb]
  | cons e rest ih =>
    obtain ⟨k2, v2⟩ := e
    by_cases h2 : k2 = k1
    · subst h2
      have hb : (k == k2) = false := by simpa using h
      simp [StrMap.set, List.lookup, hb]
    · simp only [StrMap.set, if_neg h2, List.lookup]
      split
      · rfl
      · exact ih

/-- Pairs stored under other keys leave the value of a key as it was. -/
theorem detailLoop_other (k : Str) (post : List Str) (m m1 : StrMap)
    (h : detailLoop post m = .ok m1)
    (hk : ∀ q ∈ post, ∀ kv, detailPair q = .ok kv → kv.1 ≠ k) :
    m1.lookup k = m.lookup k := by
  induction post generalizing m with
  | nil =>
    simp only [detailLoop] at h
    cases h
    rfl
  | cons q rest ih =>
    simp only [detailLoop] at h
    cases hq : detailPair q with
    | error err => simp [hq] at h
    | ok kv =>
      simp only [hq] at h
      rw [ih _ h (fun q1 hq1 => hk q1 (List.mem_cons_of_mem _ hq1)),
        lookup_set_other _ _ _ _ (fun hh => hk q (List.mem_cons_self _ _) kv hq hh.symm)]

/-- Among the pairs stored under a key the last one wins. -/
theorem detailLoop_last (pre post : List Str) (q : Str) (kv : Str × Str) (m m1 : StrMap)
    (h : detailLoop (pre ++ q :: post) m = .ok m1) (hq : detailPair q = .ok kv)
    (hk : ∀ q1 ∈ post, ∀ kv1, detailPair q1 = .ok kv1 → kv1.1 ≠ kv.1) :
    m1.lookup kv.1 = some kv.2 := by
  induction pre generalizing m with
  | nil =>
    simp only [List.nil_append, detailLoop, hq] at h
    rw [detailLoop_other kv.1 post _ m1 h hk, lookup_set_self]
  | cons p rest ih =>
    simp only [List.cons_append, detailLoop] at h
    cases hp : detailPair p with
    | error err => simp [hp] at h
    | ok kv1 =>
      simp only [hp] at h
      exact ih _ h

/-- The loop fails with the error of one of the pairs. -/
theorem detailLoop_error (pairs : List Str) (m : StrMap) (err : Error)
    (h : detailLoop pairs m = .error err) : ∃ q ∈ pairs, detailPair q = .error err := by
  induction pairs generalizing m with
  | nil => simp [detailLoop] at h
  | cons p rest ih =>
    simp only [detailLoop] at h
    cases hp : detailPair p with
    | error e1 =>
      simp only [hp] at h
      cases h
      exact ⟨p, List.mem_cons_self _ _, hp⟩
    | ok kv =>
      simp only [hp] at h
      obtain ⟨q, hq, he⟩ := ih _ h
      exact ⟨q, List.mem_cons_of_mem _ hq, he⟩

/-- The loop fails when one of the pairs does. -/
theorem detailLoop_fails (pairs : List Str) (m : StrMap) (q : Str) (err : Error)
    (hq : q ∈ pairs) (he : detailPair q = .error err) :
    ∃ e1, detailLoop pairs m = .error e1 := by
  induction pairs generalizing m with
  | nil => simp at hq
  | cons p rest ih =>
    simp only [detailLoop]
    cases hp : detailPair p with
    | error e1 => exact ⟨e1, rfl⟩
    | ok kv =>
      simp only
      rcases List.mem_cons.1 hq with h | h
      · rw [← h, he] at hp
        cases hp
      · exact ih _ h

/-- The two outcomes of `Endpoint.Detail` on an endpoint with a `?`. -/
theorem Detail_of_mem (e : Str) (h : bQuestion ∈ e) :
    Endpoint.Detail e
      = match detailLoop (queryPairs e) [] with
        | .error err => (none, some err)
        | .ok m => (some { Raw := e, Base := endpointBase e, EncodedQueryParameterMap := m },
            none) := by
  obtain ⟨pre, rest, hs, hpre, hidx⟩ := (stringsIndexGo_single bQuestion e 0).1 h
  have hnot : ¬ (stringsIndex e [bQuestion] < 0) := by
    simp only [stringsIndex, hidx]
    omega
  simp only [Endpoint.Detail, Endpoint.String, if_neg hnot, queryPairs, endpointBase]

/-- The outcome of `Endpoint.Detail` on an endpoint without `?`. -/
theorem Detail_of_not_mem (e : Str) (h : bQuestion ∉ e) :
    Endpoint.Detail e = (some { Raw := e, Base := e, EncodedQueryParameterMap := [] }, none) := by
  have hidx := (stringsIndexGo_single bQuestion e 0).2 h
  simp [Endpoint.Detail, Endpoint.String, stringsIndex, hidx]

/-- The pairs of `base?query`, the base without `?`: the query cut at `&`. -/
theorem queryPairs_append (base q : Str) (h : bQuestion ∉ base) :
    queryPairs (base ++ bQuestion :: q) = stringsSplit q [bAmp] := by
  obtain ⟨pre, rest, hs, hpre, hidx⟩ :=
    (stringsIndexGo_single bQuestion (base ++ bQuestion :: q) 0).1 (by simp)
  obtain ⟨h1, h2⟩ := split_at_sep bQuestion _ _ _ _ h hpre hs
  subst h1
  subst h2
  simp only [queryPairs, stringsIndex, hidx]
  simp

/-- An error of `Endpoint.Detail` is the error of one of the pairs. -/
theorem Detail_error (e : Str) (he : bQuestion ∈ e) (err : Error)
    (h : (Endpoint.Detail e).2 = some err) : ∃ q ∈ queryPairs e, detailPair q = .error err := by
  rw [Detail_of_mem e he] at h
  cases hl : detailLoop (queryPairs e) [] with
  | error e1 =>
    simp only [hl, Option.some.injEq] at h
    subst h
    exact detailLoop_error _ _ _ hl
  | ok m => simp [hl] at h

/-- The map of a successful `Endpoint.Detail` is the map of the loop. -/
theorem Detail_success (e : Str) (he : bQuestion ∈ e) (d : EndpointInfo)
    (h : (Endpoint.Detail e).1 = some d) :
    detailLoop (queryPairs e) [] = .ok d.EncodedQueryParameterMap := by
  rw [Detail_of_mem e he] at h
  cases hl : detailLoop (queryPairs e) [] with
  | error e1 => simp [hl] at h
  | ok m =>
    simp only [hl, Option.some.injEq] at h
    subst h
    rfl

/-- Among the pairs of an endpoint stored under a key, the last one wins. -/
theorem Detail_last (e : Str) (he : bQuestion ∈ e) (pre post : List Str) (q : Str)
    (hq : queryPairs e = pre ++ q :: post) (d : EndpointInfo)
    (h : (Endpoint.Detail e).1 = some d) (kv : Str × Str) (hkv : detailPair q = .ok kv)
    (hk : ∀ q1 ∈ post, q1.takeWhile (· ≠ bEq) ≠ kv.1) :
    d.EncodedQueryParameterMap.lookup kv.1 = some kv.2 := by
  have hl := Detail_success e he d h
  rw [hq] at hl
  refine detailLoop_last pre post q kv [] _ hl hkv ?_
  intro q1 hq1 kv1 hkv1 heq
  exact hk q1 hq1 (by rw [← heq, detailPair_key q1 kv1 hkv1])

/-- An error of `Endpoint.Detail` does not come from a pair that is accepted. -/
theorem Detail_error_elsewhere (e : Str) (he : bQuestion ∈ e) (pre post : List Str) (q : Str)
    (hq : queryPairs e = pre ++ q :: post) (kv : Str × Str) (hkv : detailPair q = .ok kv)
    (err : Error) (h : (Endpoint.Detail e).2 = some err) :
    ∃ q1 ∈ pre ++ post, detailPair q1 = .error err := by
  obtain ⟨q1, hq1, he1⟩ := Detail_error e he err h
  rw [hq] at hq1
  rcases List.mem_append.1 hq1 with h1 | h1
  · exact ⟨q1, List.mem_append_left _ h1, he1⟩
  · rcases List.mem_cons.1 h1 with h2 | h2
    · rw [h2, hkv] at he1
      cases he1
    · exact ⟨q1, List.mem_append_right _ h2, he1⟩

/-- `Endpoint.Detail` succeeds when every pair but an accepted one is accepted. -/
theorem Detail_succeeds (e : Str) (he : bQuestion ∈ e) (pre post : List Str) (q : Str)
    (hq : queryPairs e = pre ++ q :: post) (kv : Str × Str) (hkv : detailPair q = .ok kv)
    (hall : ∀ q1 ∈ pre ++ post, ∃ kv1, detailPair q1 = .ok kv1) :
    ∃ d, Endpoint.Detail e = (some d, none) := by
  rw [Detail_of_mem e he]
  cases hl : detailLoop (queryPairs e) [] with
  | ok m => exact ⟨_, rfl⟩
  | error err =>
    exfalso
    obtain ⟨q1, hq1, he1⟩ := detailLoop_error _ _ _ hl
    rw [hq] at hq1
    have hmem : q1 = q ∨ q1 ∈ pre ++ post := by
      rcases List.mem_append.1 hq1 with h1 | h1
      · exact Or.inr (List.mem_append_left _ h1)
      · rcases List.mem_cons.1 h1 with h2 | h2
        · exact Or.inl h2
        · exact Or.inr (List.mem_append_right _ h2)
    rcases hmem with h1 | h1
    · rw [h1, hkv] at he1
      cases he1
    · obtain ⟨kv1, hk1⟩ := hall q1 h1
      rw [hk1] at he1
      cases he1

/-- C15: a pair `p` without `=` among the pairs of an endpoint is accepted and
stored under the key `p` with the empty value; an error of `Endpoint.Detail`
then is the error of another pair, and `Endpoint.Detail` succeeds when the
other pairs are accepted; on success the map binds `p` to the empty string
unless a later pair has the key `p`. -/
theorem Detail_pair_without_eq (e : Str) (pre post : List Str) (p : Str)
    (he : bQuestion ∈ e) (hq : queryPairs e = pre ++ p :: post) (hp : bEq ∉ p) :
    detailPair p = .ok (p, []) ∧
    (∀ err, (Endpoint.Detail e).2 = some err → ∃ q ∈ pre ++ post, detailPair q = .error err) ∧
    ((∀ q ∈ pre ++ post, ∃ kv, detailPair q = .ok kv) →
      ∃ d, Endpoint.Detail e = (some d, none)) ∧
    (∀ d, (Endpoint.Detail e).1 = some d →
      (∀ q ∈ post, q.takeWhile (· ≠ bEq) ≠ p) →
      d.EncodedQueryParameterMap.lookup p = some []) := by
  have hpair := detailPair_no_eq p hp
  refine ⟨hpair, ?_, ?_, ?_⟩
  · intro err h
    exact Detail_error_elsewhere e he pre post p hq _ hpair err h
  · intro hall
    exact Detail_succeeds e he pre post p hq _ hpair hall
  · intro d h hk
    exact Detail_last e he pre post p hq d h (p, []) hpair hk

/-- Witness of C15: the pair `flag` of `https://a/b?x=1&flag&y=2`. -/
theorem Detail_pair_without_eq_witness :
    Endpoint.Detail (str "https://a/b?x=1&flag&y=2")
      = (some ⟨str "https://a/b?x=1&flag&y=2", str "https://a/b",
          [(str "x", str "1"), (str "flag", []), (str "y", str "2")]⟩, none) ∧
    List.lookup (str "flag") [(str "x", str "1"), (str "flag", []), (str "y", str "2")]
      = some [] :=
  ⟨by decide,
   (Detail_pair_without_eq (str "https://a/b?x=1&flag&y=2") [str "x=1"] [str "y=2"] (str "flag")
      (by decide) (by decide) (by decide)).2.2.2
      ⟨str "https://a/b?x=1&flag&y=2", str "https://a/b",
        [(str "x", str "1"), (str "flag", []), (str "y", str "2")]⟩ (by decide) (by decide)⟩

/-- C20: among the pairs of an endpoint, a pair with two or more `=` is
accepted and stored under the text before its first `=` with the empty value,
the rest of it discarded, and an error of `Endpoint.Detail` then is the error
of another pair; a pair `k=v` with exactly one `=` is stored under the key `k`
as written, with the URL-decoded `v`; on success the map binds the key of a
pair to its value unless a later pair has the same key. -/
theorem Detail_pair_values (e : Str) (pre post : List Str) (q : Str)
    (he : bQuestion ∈ e) (hq : queryPairs e = pre ++ q :: post) :
    (2 ≤ q.count bEq →
      detailPair q = .ok (q.takeWhile (· ≠ bEq), []) ∧
      (∀ err, (Endpoint.Detail e).2 = some err →
        ∃ q1 ∈ pre ++ post, detailPair q1 = .error err) ∧
      (∀ d, (Endpoint.Detail e).1 = some d →
        (∀ q1 ∈ post, q1.takeWhile (· ≠ bEq) ≠ q.takeWhile (· ≠ bEq)) →
        d.EncodedQueryParameterMap.lookup (q.takeWhile (· ≠ bEq)) = some [])) ∧
    (∀ k v t, q = k ++ bEq :: v → bEq ∉ k → bEq ∉ v → queryUnescape v = .ok t →
      detailPair q = .ok (k, t) ∧
      (∀ d, (Endpoint.Detail e).1 = some d →
        (∀ q1 ∈ post, q1.takeWhile (· ≠ bEq) ≠ k) →
        d.EncodedQueryParameterMap.lookup k = some t)) ∧
    (∀ d kv, (Endpoint.Detail e).1 = some d → detailPair q = .ok kv →
      (∀ q1 ∈ post, q1.takeWhile (· ≠ bEq) ≠ kv.1) →
      d.EncodedQueryParameterMap.lookup kv.1 = some kv.2) := by
  refine ⟨?_, ?_, ?_⟩
  · intro h2
    have hpair := detailPair_many_eq q h2
    refine ⟨hpair, ?_, ?_⟩
    · intro err h
      exact Detail_error_elsewhere e he pre post q hq _ hpair err h
    · intro d h hk
      exact Detail_last e he pre post q hq d h _ hpair hk
  · intro k v t hkv hk hv ht
    have hpair : detailPair q = .ok (k, t) := by
      rw [hkv, detailPair_one_eq k v hk hv, ht]
    refine ⟨hpair, ?_⟩
    intro d h hlast
    exact Detail_last e he pre post q hq d h _ hpair hlast
  · intro d kv h hkv hk
    exact Detail_last e he pre post q hq d h kv hkv hk

/-- Witness of C20: in `https://a/b?x=1&k=YQ==&x=%41+` the pair `k=YQ==` is
stored as `k` with the empty value, and the second `x` wins with `A `. -/
theorem Detail_pair_values_witness :
    Endpoint.Detail (str "https://a/b?x=1&k=YQ==&x=%41+")
      = (some ⟨str "https://a/b?x=1&k=YQ==&x=%41+", str "https://a/b",
          [(str "x", str "A "), (str "k", [])]⟩, none) ∧
    detailPair (str "k=YQ==") = .ok (str "k", []) ∧
    List.lookup (str "k") [(str "x", str "A "), (str "k", [])] = some [] :=
  ⟨by decide,
   ((Detail_pair_values (str "https://a/b?x=1&k=YQ==&x=%41+") [str "x=1"] [str "x=%41+"]
      (str "k=YQ==") (by decide) (by decide)).1 (by decide)).1,
   ((Detail_pair_values (str "https://a/b?x=1&k=YQ==&x=%41+") [str "x=1"] [str "x=%41+"]
      (str "k=YQ==") (by decide) (by decide)).1 (by decide)).2.2
      ⟨str "https://a/b?x=1&k=YQ==&x=%41+", str "https://a/b",
        [(str "x", str "A "), (str "k", [])]⟩ (by decide) (by decide)⟩

/-- The base of an endpoint: the endpoint itself when it holds no `?`, else the
part before its first `?`. -/
theorem endpointBase_cut (e : Str) :
    (bQuestion ∉ e ∧ endpointBase e = e) ∨
    (bQuestion ∈ e ∧ ∃ rest, e = endpointBase e ++ bQuestion :: rest ∧
      bQuestion ∉ endpointBase e) := by
  by_cases h : bQuestion ∈ e
  · obtain ⟨pre, rest, hs, hpre, hidx⟩ := (stringsIndexGo_single bQuestion e 0).1 h
    have hb : endpointBase e = pre := by
      simp only [endpointBase, stringsIndex, hidx]
      have : ¬ (((0 + pre.length : Nat) : Int) < 0) := by omega
      rw [if_neg this, hs]
      simp
    rw [hb]
    exact Or.inr ⟨h, rest, hs, hpre⟩
  · have hidx := (stringsIndexGo_single bQuestion e 0).2 h
    exact Or.inl ⟨h, by simp [endpointBase, stringsIndex, hidx]⟩

theorem endpointBase_of_not_mem (e : Str) (h : bQuestion ∉ e) : endpointBase e = e := by
  rcases endpointBase_cut e with ⟨-, h1⟩ | ⟨h1, -⟩
  · exact h1
  · exact absurd h1 h

theorem endpointBase_append (b q : Str) (h : bQuestion ∉ b) :
    endpointBase (b ++ bQuestion :: q) = b := by
  rcases endpointBase_cut (b ++ bQuestion :: q) with ⟨h1, -⟩ | ⟨-, rest, hs, hn⟩
  · exact absurd (by simp) h1
  · exact ((split_at_sep bQuestion _ _ _ _ h hn hs).1).symm

/-- C18: on every endpoint on which `Endpoint.Detail` succeeds, its `Raw` is the
endpoint and its `Base` is `endpointBase` of it; the base holds no `?`, is a
prefix of the endpoint, and `endpointBase` is idempotent; on an endpoint
without `?`, `Endpoint.Detail` succeeds with an empty parameter map. -/
theorem Detail_base_agrees (e : Str) :
    (∀ d, (Endpoint.Detail e).1 = some d → d.Raw = e ∧ d.Base = endpointBase e) ∧
    bQuestion ∉ endpointBase e ∧
    (∃ t, e = endpointBase e ++ t) ∧
    endpointBase (endpointBase e) = endpointBase e ∧
    (bQuestion ∉ e →
      Endpoint.Detail e
        = (some { Raw := e, Base := e, EncodedQueryParameterMap := [] }, none)) := by
  have hno : bQuestion ∉ endpointBase e := by
    rcases endpointBase_cut e with ⟨h1, h2⟩ | ⟨-, rest, -, hn⟩
    · rw [h2]
      exact h1
    · exact hn
  refine ⟨?_, hno, ?_, endpointBase_of_not_mem _ hno, Detail_of_not_mem e⟩
  · intro d h
    by_cases hq : bQuestion ∈ e
    · rw [Detail_of_mem e hq] at h
      cases hl : detailLoop (queryPairs e) [] with
      | error err => simp [hl] at h
      | ok m =>
        simp only [hl, Option.some.injEq] at h
        subst h
        exact ⟨rfl, rfl⟩
    · rw [Detail_of_not_mem e hq] at h
      simp only [Option.some.injEq] at h
      subst h
      exact ⟨rfl, (endpointBase_of_not_mem e hq).symm⟩
  · rcases endpointBase_cut e with ⟨-, h2⟩ | ⟨-, rest, hs, -⟩
    · exact ⟨[], by rw [h2]; simp⟩
    · exact ⟨bQuestion :: rest, hs⟩

/-- Witness of C18: `Endpoint.Detail` on an endpoint with a query and on one
without. -/
theorem Detail_base_agrees_witness :
    Endpoint.Detail (str "https://a/b?x=1")
      = (some ⟨str "https://a/b?x=1", str "https://a/b", [(str "x", str "1")]⟩, none) ∧
    endpointBase (str "https://a/b?x=1") = str "https://a/b" ∧
    Endpoint.Detail (str "https://a/b") = (some ⟨str "https://a/b", str "https://a/b", []⟩, none) :=
  ⟨by decide,
   ((Detail_base_agrees (str "https://a/b?x=1")).1
      ⟨str "https://a/b?x=1", str "https://a/b", [(str "x", str "1")]⟩ (by decide)).2.symm,
   (Detail_base_agrees (str "https://a/b")).2.2.2.2 (by decide)⟩

theorem createParameterString_congr (P : List (Str × Str)) (n t : Str)
    (inp inp1 : CreateOAthSignatureInput) (hc : inp1.OAuthConsumerKey = inp.OAuthConsumerKey)
    (ht : inp1.OAuthToken = inp.OAuthToken) :
    createParameterString P n t inp1 = createParameterString P n t inp := by
  simp only [createParameterString, hc, ht]

/-- C19: the result of `CreateOAuthSignature`, its signature included, depends
on the raw endpoint through its base only.  Two inputs that differ in the raw
endpoint alone, with the same base, give the same result under the same random
source, clock and hash write; so `b?q1`, `b?q2` and `b` are signed alike, and
what is written in the query of the endpoint reaches the signature through
`ParameterMap` only. -/
theorem CreateOAuthSignature_ignores_query (env : Env) (inp : CreateOAthSignatureInput) :
    (∀ e1 : Str, endpointBase e1 = endpointBase inp.RawEndpoint →
      CreateOAuthSignature env { inp with RawEndpoint := e1 } = CreateOAuthSignature env inp) ∧
    (∀ b q1 q2 : Str, bQuestion ∉ b →
      CreateOAuthSignature env { inp with RawEndpoint := b ++ bQuestion :: q1 }
        = CreateOAuthSignature env { inp with RawEndpoint := b ++ bQuestion :: q2 } ∧
      CreateOAuthSignature env { inp with RawEndpoint := b ++ bQuestion :: q1 }
        = CreateOAuthSignature env { inp with RawEndpoint := b }) := by
  have key : ∀ i1 i2 : CreateOAthSignatureInput, i1.HTTPMethod = i2.HTTPMethod →
      i1.OAuthConsumerKey = i2.OAuthConsumerKey → i1.OAuthToken = i2.OAuthToken →
      i1.SigningKey = i2.SigningKey → i1.ParameterMap = i2.ParameterMap →
      endpointBase i1.RawEndpoint = endpointBase i2.RawEndpoint →
      CreateOAuthSignature env i1 = CreateOAuthSignature env i2 := by
    intro i1 i2 h1 h2 h3 h4 h5 h6
    rw [CreateOAuthSignature_eq, CreateOAuthSignature_eq, h1, h4, h5, h6,
      createParameterString_congr _ _ _ i2 i1 h2 h3]
  refine ⟨fun e1 h => key _ _ rfl rfl rfl rfl rfl h, ?_⟩
  intro b q1 q2 hb
  refine ⟨key _ _ rfl rfl rfl rfl rfl ?_, key _ _ rfl rfl rfl rfl rfl ?_⟩
  · simp only [endpointBase_append b _ hb]
  · simp only [endpointBase_append b _ hb, endpointBase_of_not_mem b hb]

/-- Witness of C19: `https://a/b?x=1` and `https://a/b?y=2&z` are signed alike. -/
theorem CreateOAuthSignature_ignores_query_witness :
    CreateOAuthSignature ⟨id, (List.replicate 32 (byteOf 255), none), 1700000000, hashWriteStd⟩
        ⟨str "get", str "https://a/b" ++ bQuestion :: str "x=1", str "ck", str "tok", str "sk",
          [(str "x", str "1")]⟩
      = CreateOAuthSignature
        ⟨id, (List.replicate 32 (byteOf 255), none), 1700000000, hashWriteStd⟩
        ⟨str "get", str "https://a/b" ++ bQuestion :: str "y=2&z", str "ck", str "tok", str "sk",
          [(str "x", str "1")]⟩ :=
  ((CreateOAuthSignature_ignores_query
      ⟨id, (List.replicate 32 (byteOf 255), none), 1700000000, hashWriteStd⟩
      ⟨str "get", str "https://a/b", str "ck", str "tok", str "sk", [(str "x", str "1")]⟩).2
      (str "https://a/b") (str "x=1") (str "y=2&z") (by decide)).1

/-! ## Equal keys in `url.Values` -/

theorem Values.get_nil (k : Str) : Values.get [] k = [] := rfl

theorem Values.get_cons (e : Str × List Str) (v : Values) (k : Str) :
    Values.get (e :: v) k = if k = e.1 then e.2 else Values.get v k := by
  by_cases h : k = e.1
  · subst h
    simp [Values.get, List.lookup]
  · have hb : (k == e.1) = false := by simpa using h
    simp [Values.get, List.lookup, hb, h]

theorem Values.get_Add (v : Values) (k x k1 : Str) :
    Values.get (Values.Add v k x) k1
      = if k1 = k then Values.get v k ++ [x] else Values.get v k1 := by
  induction v with
  | nil =>
    by_cases h : k1 = k
    · subst h
      simp [Values.Add, Values.get_cons, Values.get_nil]
    · simp [Values.Add, Values.get_cons, Values.get_nil, h]
  | cons e rest ih =>
    obtain ⟨k2, vs⟩ := e
    by_cases h2 : k2 = k
    · subst h2
      by_cases h : k1 = k2
      · subst h
        simp [Values.Add, Values.get_cons]
      · simp [Values.Add, Values.get_cons, h]
    · simp only [Values.Add, if_neg h2, Values.get_cons, ih]
      by_cases h : k1 = k
      · subst h
        have h3 : ¬ k1 = k2 := fun hh => h2 hh.symm
        simp [h3]
      · simp [h]

/-- The values of a key after a run of `Add`: those it had, then the added ones
in the order they were added. -/
theorem Values.get_foldl_Add (M : List (Str × Str)) (v : Values) (k : Str) :
    Values.get (M.foldl (fun qv kv => Values.Add qv kv.1 kv.2) v) k
      = Values.get v k ++ (M.filter fun p => p.1 = k).map Prod.snd := by
  induction M generalizing v with
  | nil => simp
  | cons p rest ih =>
    rw [List.foldl_cons, ih, Values.get_Add]
    by_cases h : p.1 = k
    · subst h
      simp [List.filter_cons]
    · have h2 : ¬ k = p.1 := fun hh => h hh.symm
      simp [List.filter_cons, h, h2]

theorem Values.get_of_not_mem (v : Values) (k : Str) (h : k ∉ v.map Prod.fst) :
    Values.get v k = [] := by
  induction v with
  | nil => rfl
  | cons e rest ih =>
    simp only [List.map_cons, List.mem_cons, not_or] at h
    rw [Values.get_cons, if_neg h.1, ih h.2]

theorem filter_flatMap_key (ks : List Str) (hnd : ks.Nodup) (f : Str → List Str) (k : Str) :
    (ks.flatMap fun k1 => (f k1).map fun x => (k1, x)).filter (fun p => p.1 = k)
      = if k ∈ ks then (f k).map fun x => (k, x) else [] := by
  induction ks with
  | nil => simp
  | cons a rest ih =>
    simp only [List.nodup_cons] at hnd
    rw [List.flatMap_cons, List.filter_append, ih hnd.2]
    by_cases h : a = k
    · subst h
      have h1 : ((f a).map fun x => (a, x)).filter (fun p => p.1 = a)
          = (f a).map fun x => (a, x) := by
        rw [List.filter_eq_self]
        intro p hp
        obtain ⟨x, -, rfl⟩ := List.mem_map.1 hp
        simp
      rw [h1, if_neg hnd.1]
      simp
    · have h1 : ((f a).map fun x => (a, x)).filter (fun p => p.1 = k) = [] := by
        rw [List.filter_eq_nil_iff]
        intro p hp
        obtain ⟨x, -, rfl⟩ := List.mem_map.1 hp
        simpa using h
      have h2 : ¬ k = a := fun hh => h hh.symm
      rw [h1]
      simp [h2]

theorem sorted_flatMap_keys (ks : List Str) (hs : ks.Sorted (· ≤ ·)) (f : Str → List Str) :
    ((ks.flatMap fun k => (f k).map fun x => (k, x)).map Prod.fst).Sorted (· ≤ ·) := by
  induction ks with
  | nil => simp
  | cons a rest ih =>
    have hs2 := List.pairwise_cons.1 hs
    rw [List.flatMap_cons, List.map_append]
    refine List.pairwise_append.2 ⟨?_, ih hs2.2, ?_⟩
    · rw [List.map_map]
      exact List.pairwise_map.2 (List.pairwise_of_forall fun _ _ => le_refl a)
    · intro x hx y hy
      have hxa : x = a := by
        obtain ⟨p, hp, rfl⟩ := List.mem_map.1 hx
        obtain ⟨z, -, rfl⟩ := List.mem_map.1 hp
        rfl
      obtain ⟨p, hp, rfl⟩ := List.mem_map.1 hy
      obtain ⟨k1, hk1, hp1⟩ := List.mem_flatMap.1 hp
      obtain ⟨z, -, rfl⟩ := List.mem_map.1 hp1
      rw [hxa]
      exact hs2.1 k1 hk1

theorem filter_key_map (M : List (Str × Str)) (k : Str) :
    ((M.filter fun p => p.1 = k).map Prod.snd).map (fun x => (k, x))
      = M.filter fun p => p.1 = k := by
  rw [List.map_map]
  conv_rhs => rw [← List.map_id (M.filter fun p => p.1 = k)]
  apply List.map_congr_left
  intro p hp
  have h := (List.mem_filter.1 hp).2
  simp only [decide_eq_true_eq] at h
  simp [← h]

/-- The parameter string of any caller map: the join of the encoded entries
sorted by key, the entries of a key in the order in which they were added. -/
theorem createParameterString_stable (P : List (Str × Str)) (n t : Str)
    (inp : CreateOAthSignatureInput) :
    ∃ L : List (Str × Str),
      createParameterString P n t inp = stringsJoin (L.map encodePair) [bAmp] ∧
      (L.map Prod.fst).Sorted (· ≤ ·) ∧
      ∀ k, L.filter (fun p => p.1 = k) = (P ++ oauthPairs n t inp).filter (fun p => p.1 = k) := by
  obtain ⟨hnd, -⟩ := Values.foldl_Add_invariant (P ++ oauthPairs n t inp) [] (by simp)
  refine ⟨((((P ++ oauthPairs n t inp).foldl (fun qv kv => Values.Add qv kv.1 kv.2) []).map
    Prod.fst).insertionSort (· ≤ ·)).flatMap fun k =>
      (Values.get ((P ++ oauthPairs n t inp).foldl (fun qv kv => Values.Add qv kv.1 kv.2) []) k).map
        fun x => (k, x), ?_, ?_, ?_⟩
  · rw [createParameterString_eq, Values.Encode_eq_join]
  · exact sorted_flatMap_keys _ (List.sorted_insertionSort _ _) _
  · intro k
    have hnd2 := (List.perm_insertionSort (· ≤ ·)
      (((P ++ oauthPairs n t inp).foldl (fun qv kv => Values.Add qv kv.1 kv.2) []).map
        Prod.fst)).nodup_iff.2 hnd
    rw [filter_flatMap_key _ hnd2]
    have hget := Values.get_foldl_Add (P ++ oauthPairs n t inp) [] k
    rw [Values.get_nil, List.nil_append] at hget
    split
    · rw [hget, filter_key_map]
    · rename_i hk
      have hk2 : k ∉ ((P ++ oauthPairs n t inp).foldl
          (fun qv kv => Values.Add qv kv.1 kv.2) []).map Prod.fst :=
        fun hm => hk ((List.perm_insertionSort _ _).mem_iff.2 hm)
      have h0 := Values.get_of_not_mem _ k hk2
      rw [hget] at h0
      rw [← filter_key_map, h0]
      rfl

theorem filter_key_nodup (P : List (Str × Str)) (hnd : (P.map Prod.fst).Nodup) (k v : Str)
    (h : (k, v) ∈ P) : P.filter (fun p => p.1 = k) = [(k, v)] := by
  induction P with
  | nil => simp at h
  | cons e rest ih =>
    simp only [List.map_cons, List.nodup_cons] at hnd
    rcases List.mem_cons.1 h with he | hr
    · subst he
      have hnone : rest.filter (fun p => p.1 = k) = [] := by
        rw [List.filter_eq_nil_iff]
        intro p hp
        have : p.1 ≠ k := fun hh => hnd.1 (by
          have hm : p.1 ∈ rest.map Prod.fst := List.mem_map_of_mem Prod.fst hp
          rw [hh] at hm
          exact hm)
        simpa using this
      simp [List.filter_cons, hnone]
    · have hne : ¬ e.1 = k := fun hh => hnd.1 (by
        have hm : k ∈ rest.map Prod.fst := List.mem_map_of_mem Prod.fst hr
        rw [← hh] at hm
        exact hm)
      simp [List.filter_cons, hne, ih hnd.2 hr]

theorem oauthPairs_filter_token (n t : Str) (inp : CreateOAthSignatureInput) :
    (oauthPairs n t inp).filter (fun p => p.1 = str "oauth_token")
      = [(str "oauth_token", inp.OAuthToken)] := by
  have h1 : ¬ str "oauth_consumer_key" = str "oauth_token" := by decide
  have h2 : ¬ str "oauth_nonce" = str "oauth_token" := by decide
  have h3 : ¬ str "oauth_signature_method" = str "oauth_token" := by decide
  have h4 : ¬ str "oauth_timestamp" = str "oauth_token" := by decide
  have h5 : ¬ str "oauth_version" = str "oauth_token" := by decide
  simp [oauthPairs, List.filter_cons, h1, h2, h3, h4, h5]

/-- C17, as the code has it: entries with equal keys are in insertion order, not
ordered by value.  For every caller parameter map, the parameter string is the
join of encoded entries in ascending order of the key, and the entries of one
key are the caller's and the injected entries of that key in the order in which
they were added; so when the caller supplies `oauth_token`, the caller's entry
comes first and the injected one second, whatever their values. -/
theorem createParameterString_equal_keys (P : List (Str × Str)) (n t : Str)
    (inp : CreateOAthSignatureInput) :
    ∃ L : List (Str × Str),
      createParameterString P n t inp = stringsJoin (L.map encodePair) [bAmp] ∧
      (L.map Prod.fst).Sorted (· ≤ ·) ∧
      (∀ k, L.filter (fun p => p.1 = k)
        = (P ++ oauthPairs n t inp).filter (fun p => p.1 = k)) ∧
      (∀ v, (P.map Prod.fst).Nodup → (str "oauth_token", v) ∈ P →
        L.filter (fun p => p.1 = str "oauth_token")
          = [(str "oauth_token", v), (str "oauth_token", inp.OAuthToken)]) := by
  obtain ⟨L, h1, h2, h3⟩ := createParameterString_stable P n t inp
  refine ⟨L, h1, h2, h3, ?_⟩
  intro v hnd hv
  rw [h3, List.filter_append, filter_key_nodup P hnd _ v hv, oauthPairs_filter_token]
  rfl

/-- Counterexample to C17: the caller supplies `oauth_token=zzz`, the engine
injects `oauth_token=tok`; the larger value `zzz` comes first. -/
theorem createParameterString_equal_keys_counterexample :
    createParameterString [(str "oauth_token", str "zzz")] (str "N") (str "1")
        ⟨str "get", str "https://a/b", str "ck", str "tok", str "sk", []⟩
      = str ("oauth_consumer_key=ck&oauth_nonce=N&oauth_signature_method=HMAC-SHA1"
          ++ "&oauth_timestamp=1&oauth_token=zzz&oauth_token=tok&oauth_version=1.0") ∧
    str "tok" < str "zzz" := by
  decide

/-! ## Parameter maps -/

theorem StrMap.set_of_not_mem (m : StrMap) (k v : Str) (h : k ∉ m.map Prod.fst) :
    StrMap.set m k v = m ++ [(k, v)] := by
  induction m with
  | nil => rfl
  | cons e rest ih =>
    obtain ⟨k1, v1⟩ := e
    simp only [List.map_cons, List.mem_cons, not_or] at h
    have hne : ¬ k1 = k := fun hh => h.1 hh.symm
    simp [StrMap.set, hne, ih h.2]

theorem QueryValue_of_set (l : Slice Str) (h : fieldSet l) :
    QueryValue l = stringsJoin (l.getD []) (str ",") := by
  have : ¬ Slice.len l = 0 := by
    have := h.2
    omega
  simp [QueryValue, this]

theorem QueryValue_of_unset (l : Slice Str) (h : l = none ∨ Slice.len l = 0) :
    QueryValue l = [] := by
  rcases h with h | h
  · subst h
    rfl
  · simp [QueryValue, h]

/-- The map after `SetFieldsParams`, the names new and distinct: the entries it
had, then the entries of the field lists that are set. -/
theorem SetFieldsParams_eq (fields : List (Str × Slice Str)) (m : StrMap)
    (h : (m.map Prod.fst ++ fields.map Prod.fst).Nodup) :
    SetFieldsParams m fields = m ++ setFieldEntries fields := by
  induction fields generalizing m with
  | nil => simp [SetFieldsParams, setFieldEntries]
  | cons f rest ih =>
    have hstep : SetFieldsParams m (f :: rest)
        = SetFieldsParams
            (if f.2 ≠ none ∧ Slice.len f.2 > 0 then StrMap.set m f.1 (QueryValue f.2) else m)
            rest := by
      simp [SetFieldsParams]
    rw [hstep]
    have hk : f.1 ∉ m.map Prod.fst := by
      intro hm
      rw [List.nodup_append] at h
      exact h.2.2 hm (by simp)
    have hrest : (m.map Prod.fst ++ rest.map Prod.fst).Nodup := by
      rw [List.map_cons] at h
      exact (List.nodup_cons.1 (List.nodup_middle.1 h)).2
    by_cases hs : f.2 ≠ none ∧ Slice.len f.2 > 0
    · rw [if_pos hs, StrMap.set_of_not_mem m _ _ hk, ih]
      · have hf : fieldSet f.2 := hs
        simp [setFieldEntries, List.filter_cons, hf, QueryValue_of_set f.2 hf]
      · rw [List.map_cons] at h
        simpa [List.append_assoc] using h
    · rw [if_neg hs, ih _ hrest]
      have hf : ¬ fieldSet f.2 := hs
      simp [setFieldEntries, List.filter_cons, hf]

theorem ParameterMap_eq_ID (p : SpacesLookupIDParams) :
    p.ParameterMap = setFieldEntries (optionalFields p.Expansions p.SpaceFields p.UserFields) := by
  have h := SetFieldsParams_eq (optionalFields p.Expansions p.SpaceFields p.UserFields) []
    (by simp only [optionalFields, List.map_cons, List.map_nil]; decide)
  simpa [SpacesLookupIDParams.ParameterMap, optionalFields] using h

theorem ParameterMap_eq_Lookup (p : SpacesLookupParams) :
    p.ParameterMap = (str "ids", QueryValue p.IDs)
      :: setFieldEntries (optionalFields p.Expansions p.SpaceFields p.UserFields) := by
  have h := SetFieldsParams_eq (optionalFields p.Expansions p.SpaceFields p.UserFields)
    [(str "ids", QueryValue p.IDs)]
    (by simp only [optionalFields, List.map_cons, List.map_nil]; decide)
  simpa [SpacesLookupParams.ParameterMap, optionalFields, StrMap.set] using h

theorem ParameterMap_eq_ByCreator (p : SpacesLookupByCreatorIDsParams) :
    p.ParameterMap = (str "user_ids", QueryValue p.UserIDs)
      :: setFieldEntries (optionalFields p.Expansions p.SpaceFields p.UserFields) := by
  have h := SetFieldsParams_eq (optionalFields p.Expansions p.SpaceFields p.UserFields)
    [(str "user_ids", QueryValue p.UserIDs)]
    (by simp only [optionalFields, List.map_cons, List.map_nil]; decide)
  simpa [SpacesLookupByCreatorIDsParams.ParameterMap, optionalFields, StrMap.set] using h

/-- The keys of the entries of the optional field lists: the names of the lists
that are set. -/
theorem mem_setFieldEntries_keys (e s u : Slice Str) (k : Str) :
    k ∈ (setFieldEntries (optionalFields e s u)).map Prod.fst ↔
      (k = str "expansions" ∧ fieldSet e) ∨ (k = str "space.fields" ∧ fieldSet s) ∨
      (k = str "user.fields" ∧ fieldSet u) := by
  simp only [setFieldEntries, optionalFields, List.map_map, List.mem_map, List.mem_filter,
    List.mem_cons, List.mem_singleton, List.not_mem_nil, or_false, Function.comp_def,
    decide_eq_true_eq]
  constructor
  · rintro ⟨f, ⟨hf | hf | hf, hset⟩, rfl⟩
    · subst hf
      exact Or.inl ⟨rfl, hset⟩
    · subst hf
      exact Or.inr (Or.inl ⟨rfl, hset⟩)
    · subst hf
      exact Or.inr (Or.inr ⟨rfl, hset⟩)
  · rintro (⟨rfl, h⟩ | ⟨rfl, h⟩ | ⟨rfl, h⟩)
    · exact ⟨_, ⟨Or.inl rfl, h⟩, rfl⟩
    · exact ⟨_, ⟨Or.inr (Or.inl rfl), h⟩, rfl⟩
    · exact ⟨_, ⟨Or.inr (Or.inr rfl), h⟩, rfl⟩

/-! ## `strings.Replace` of the first instance -/

theorem stringsReplaceGo_nil (old new : Str) (skip n : Nat) :
    stringsReplaceGo old new skip n [] = [] := by
  cases skip <;> cases n <;> rfl

/-- With no replacement left, the scan drops the rest of the replaced instance
and copies what follows. -/
theorem stringsReplaceGo_zero (old new : Str) (skip : Nat) (s : Str) :
    stringsReplaceGo old new skip 0 s = s.drop skip := by
  induction s generalizing skip with
  | nil => simp [stringsReplaceGo_nil]
  | cons c cs ih =>
    cases skip with
    | zero => simp [stringsReplaceGo]
    | succ k => simp [stringsReplaceGo, ih]

/-- Where the instance does not start at any position, nothing is replaced. -/
theorem stringsReplaceGo_none (old new : Str) (n : Nat) (s : Str)
    (h : ∀ i, old.isPrefixOf (s.drop i) = false) :
    stringsReplaceGo old new 0 n s = s := by
  induction s with
  | nil => simp [stringsReplaceGo_nil]
  | cons c cs ih =>
    cases n with
    | zero => simp [stringsReplaceGo]
    | succ m =>
      have h0 : old.isPrefixOf (c :: cs) = false := h 0
      have hrest : ∀ i, old.isPrefixOf (cs.drop i) = false := fun i => h (i + 1)
      simp [stringsReplaceGo, h0, ih hrest]

/-- The scan after the bytes of a replaced instance are dropped. -/
theorem stringsReplaceGo_skip (old new : Str) (skip n : Nat) (s : Str) :
    stringsReplaceGo old new skip n s = stringsReplaceGo old new 0 n (s.drop skip) := by
  induction skip generalizing s with
  | zero => rfl
  | succ k ih =>
    cases s with
    | nil => simp [stringsReplaceGo_nil]
    | cons c cs => simp [stringsReplaceGo, ih]

theorem isPrefixOf_append_self (old post : Str) : old.isPrefixOf (old ++ post) = true := by
  induction old with
  | nil => simp [List.isPrefixOf]
  | cons c cs ih => simp [List.isPrefixOf, ih]

/-- The first instance, at the end of `pre`, is replaced, and the scan goes on
behind it with one replacement less. -/
theorem stringsReplaceGo_first (old new : Str) (hold : old ≠ []) (n : Nat) (pre post : Str)
    (h : ∀ i, i < pre.length → old.isPrefixOf ((pre ++ old ++ post).drop i) = false) :
    stringsReplaceGo old new 0 (n + 1) (pre ++ old ++ post)
      = pre ++ new ++ stringsReplaceGo old new 0 n post := by
  induction pre with
  | nil =>
    cases old with
    | nil => exact absurd rfl hold
    | cons c cs =>
      have hp : (c :: cs).isPrefixOf (c :: (cs ++ post)) = true :=
        isPrefixOf_append_self (c :: cs) post
      simp only [List.nil_append, List.cons_append, stringsReplaceGo, hp, if_true,
        List.length_cons, Nat.add_sub_cancel]
      rw [stringsReplaceGo_skip]
      simp
  | cons a rest ih =>
    have h0 : old.isPrefixOf (a :: (rest ++ old ++ post)) = false := by
      have := h 0 (by simp)
      simpa using this
    have hrest : ∀ i, i < rest.length →
        old.isPrefixOf ((rest ++ old ++ post).drop i) = false := by
      intro i hi
      have := h (i + 1) (by simp; omega)
      simpa using this
    simp only [List.cons_append, List.append_assoc] at h0 ⊢
    simp only [stringsReplaceGo, h0]
    have := ih hrest
    simp only [List.append_assoc] at this
    simp [this]

/-- Go `strings.Replace(s, old, new, 1)` on a string whose first instance of
`old` is at the end of `pre`. -/
theorem stringsReplace_first (old new pre post : Str) (hold : old ≠ [])
    (h : ∀ i, i < pre.length → old.isPrefixOf ((pre ++ old ++ post).drop i) = false) :
    stringsReplace (pre ++ old ++ post) old new 1 = pre ++ new ++ post := by
  by_cases hon : old = new
  · subst hon
    simp [stringsReplace]
  · have h1 : ¬ ((1 : Int) < 0) := by decide
    have h2 : ((1 : Int)).toNat = 1 := rfl
    simp only [stringsReplace, hon, hold, false_or, if_false, h1, h2]
    have hz : (1 : Int) = 0 ↔ False := by decide
    simp only [hz, if_false]
    rw [stringsReplaceGo_first old new hold 0 pre post h, stringsReplaceGo_zero]
    simp

/-- Go `strings.Replace(s, old, new, 1)` on a string without an instance of
`old`. -/
theorem stringsReplace_none (old new s : Str) (n : Int)
    (h : ∀ i, old.isPrefixOf (s.drop i) = false) :
    stringsReplace s old new n = s := by
  unfold stringsReplace
  split
  · rfl
  · exact stringsReplaceGo_none old new _ s h

/-! ## The query string of a resolved endpoint -/

theorem foldl_allowed (pm : StrMap) (inc : List Str) (q : Values) (h : ∀ kv ∈ pm, kv.1 ∈ inc) :
    pm.foldl (fun q kv => if kv.1 ∈ inc then Values.Add q kv.1 kv.2 else q) q
      = pm.foldl (fun q kv => Values.Add q kv.1 kv.2) q := by
  induction pm generalizing q with
  | nil => rfl
  | cons e rest ih =>
    rw [List.foldl_cons, List.foldl_cons, if_pos (h e (List.mem_cons_self _ _)),
      ih _ (fun kv hkv => h kv (List.mem_cons_of_mem _ hkv))]

/-- The query string of a map whose keys are allowed and in strictly ascending
order: the join of its encoded entries. -/
theorem QueryString_sorted (pm : StrMap) (inc : List Str) (h : ∀ kv ∈ pm, kv.1 ∈ inc)
    (hs : pm.Pairwise (fun a b => a.1 < b.1)) :
    QueryString pm inc = stringsJoin (pm.map encodePair) [bAmp] := by
  have hnd : (pm.map Prod.fst).Nodup :=
    (List.pairwise_map.2 hs : (pm.map Prod.fst).Sorted (· < ·)).nodup
  have hsort : pm.insertionSort (fun a b => a.1 ≤ b.1) = pm :=
    eq_of_perm_of_strict _ _ (List.perm_insertionSort _ _) (strict_byKey pm hnd) hs
  simp only [QueryString]
  rw [foldl_allowed pm inc [] h, foldl_Add pm [] (by simpa using hnd)]
  have := Values.Encode_single pm hnd
  rw [hsort] at this
  simpa using this

theorem stringsJoin_encodePair_eq_nil (L : List (Str × Str)) :
    stringsJoin (L.map encodePair) [bAmp] = [] ↔ L = [] := by
  cases L with
  | nil => simp [stringsJoin]
  | cons p rest =>
    rw [List.map_cons, stringsJoin_cons]
    simp [encodePair]

theorem setFieldEntries_sorted (e s u : Slice Str) :
    (setFieldEntries (optionalFields e s u)).Pairwise (fun a b => a.1 < b.1) := by
  have h1 : ((optionalFields e s u).map Prod.fst).Sorted (· < ·) := by
    simp only [optionalFields, List.map_cons, List.map_nil]
    decide
  have h2 : (optionalFields e s u).Pairwise (fun a b => a.1 < b.1) := List.pairwise_map.1 h1
  have h3 : ((optionalFields e s u).filter fun f => fieldSet f.2).Pairwise
      (fun a b => a.1 < b.1) :=
    List.Pairwise.sublist (List.filter_sublist _) h2
  exact List.pairwise_map.2 h3

theorem setFieldEntries_allowed (e s u : Slice Str) :
    ∀ kv ∈ setFieldEntries (optionalFields e s u), kv.1 ∈ SpacesLookupIDQueryParams := by
  intro kv hkv
  have hk := (mem_setFieldEntries_keys e s u kv.1).1 (List.mem_map_of_mem Prod.fst hkv)
  rcases hk with ⟨h, -⟩ | ⟨h, -⟩ | ⟨h, -⟩ <;> rw [h] <;> decide

theorem setFieldEntries_eq_nil (e s u : Slice Str) :
    setFieldEntries (optionalFields e s u) = [] ↔ ¬ fieldSet e ∧ ¬ fieldSet s ∧ ¬ fieldSet u := by
  constructor
  · intro h
    have hk := fun k => mem_setFieldEntries_keys e s u k
    rw [h] at hk
    refine ⟨fun he => ?_, fun hs => ?_, fun hu => ?_⟩
    · exact absurd ((hk _).2 (Or.inl ⟨rfl, he⟩)) (by simp)
    · exact absurd ((hk _).2 (Or.inr (Or.inl ⟨rfl, hs⟩))) (by simp)
    · exact absurd ((hk _).2 (Or.inr (Or.inr ⟨rfl, hu⟩))) (by simp)
  · rintro ⟨he, hs, hu⟩
    simp [setFieldEntries, optionalFields, List.filter_cons, he, hs, hu]

/-- C11: for a non-empty `ID`, `ResolveEndpoint` is the template with `:id`
replaced once by the escaped `ID`, followed by nothing when no field list is
set and otherwise by `?` and the `&`-join of the entries `name=value` of the
field lists that are set: the names among `expansions`, `space.fields`,
`user.fields`, each once and in ascending order, the value the elements joined
by `,` and escaped (`,` as `%2C`).  The replacement takes the first `:id` of
the template and leaves a template without `:id` as it is. -/
theorem SpacesLookupIDParams.ResolveEndpoint_spec (p : SpacesLookupIDParams) (T : Str)
    (hid : p.ID ≠ []) :
    p.ResolveEndpoint T
      = stringsReplace T (str ":id") (queryEscape p.ID) 1 ++
        (if setFieldEntries (optionalFields p.Expansions p.SpaceFields p.UserFields) = [] then []
         else str "?" ++ stringsJoin
          ((setFieldEntries (optionalFields p.Expansions p.SpaceFields p.UserFields)).map
            encodePair) [bAmp]) ∧
    (setFieldEntries (optionalFields p.Expansions p.SpaceFields p.UserFields) = [] ↔
      ¬ fieldSet p.Expansions ∧ ¬ fieldSet p.SpaceFields ∧ ¬ fieldSet p.UserFields) ∧
    ((setFieldEntries (optionalFields p.Expansions p.SpaceFields p.UserFields)).map
      Prod.fst).Sorted (· < ·) ∧
    (∀ k, k ∈ (setFieldEntries (optionalFields p.Expansions p.SpaceFields p.UserFields)).map
        Prod.fst ↔
      (k = str "expansions" ∧ fieldSet p.Expansions) ∨
      (k = str "space.fields" ∧ fieldSet p.SpaceFields) ∨
      (k = str "user.fields" ∧ fieldSet p.UserFields)) ∧
    queryEscape (str ",") = str "%2C" ∧
    (∀ pre post, T = pre ++ str ":id" ++ post →
      (∀ i, i < pre.length → (str ":id").isPrefixOf (T.drop i) = false) →
      stringsReplace T (str ":id") (queryEscape p.ID) 1 = pre ++ queryEscape p.ID ++ post) ∧
    ((∀ i, (str ":id").isPrefixOf (T.drop i) = false) →
      stringsReplace T (str ":id") (queryEscape p.ID) 1 = T) := by
  refine ⟨?_, setFieldEntries_eq_nil _ _ _, List.pairwise_map.2 (setFieldEntries_sorted _ _ _),
    mem_setFieldEntries_keys _ _ _, by decide, ?_, ?_⟩
  · simp only [SpacesLookupIDParams.ResolveEndpoint, if_neg hid]
    rw [ParameterMap_eq_ID,
      QueryString_sorted _ _ (setFieldEntries_allowed _ _ _) (setFieldEntries_sorted _ _ _)]
    by_cases hnil : setFieldEntries (optionalFields p.Expansions p.SpaceFields p.UserFields) = []
    · simp [hnil, stringsJoin]
    · have hq := (not_congr (stringsJoin_encodePair_eq_nil
        (setFieldEntries (optionalFields p.Expansions p.SpaceFields p.UserFields)))).2 hnil
      simp [hnil, hq]
  · intro pre post hT hfirst
    subst hT
    exact stringsReplace_first _ _ pre post (by decide) hfirst
  · intro hnone
    exact stringsReplace_none _ _ T 1 hnone

/-- Witness of C11: the `ID` `42` and the expansions `a`, `b`. -/
theorem SpacesLookupIDParams.ResolveEndpoint_spec_witness :
    (⟨[], str "42", some [str "a", str "b"], none, none⟩ : SpacesLookupIDParams).ResolveEndpoint
        (str "https://api.example.com/2/resource/:id")
      = str "https://api.example.com/2/resource/42?expansions=a%2Cb" ∧
    stringsReplace (str "https://api.example.com/2/resource/:id") (str ":id")
        (queryEscape (str "42")) 1
      = str "https://api.example.com/2/resource/" ++ queryEscape (str "42") ++ [] :=
  ⟨by decide,
   (SpacesLookupIDParams.ResolveEndpoint_spec
      (⟨[], str "42", some [str "a", str "b"], none, none⟩ : SpacesLookupIDParams)
      (str "https://api.example.com/2/resource/:id") (by decide)).2.2.2.2.2.1
      (str "https://api.example.com/2/resource/") [] (by decide) (by decide)⟩

theorem lookup_head (k v : Str) (m : StrMap) : List.lookup k ((k, v) :: m) = some v := by
  simp [List.lookup]

/-- C12, as the code has it: an unset optional field list (`Expansions`,
`SpaceFields`, `UserFields`) is omitted from `ParameterMap()`, which holds the
name of such a list if and only if the list is non-nil and non-empty; the
required list is always emitted: `ParameterMap()` of `SpacesLookupParams`
(resp. `SpacesLookupByCreatorIDsParams`) binds `ids` (resp. `user_ids`) to the
comma-joined list, which is the empty string when the list is nil or empty. -/
theorem ParameterMap_lists :
    (∀ p : SpacesLookupIDParams,
      p.ParameterMap = setFieldEntries (optionalFields p.Expansions p.SpaceFields p.UserFields) ∧
      ∀ k, k ∈ p.ParameterMap.map Prod.fst ↔
        (k = str "expansions" ∧ fieldSet p.Expansions) ∨
        (k = str "space.fields" ∧ fieldSet p.SpaceFields) ∨
        (k = str "user.fields" ∧ fieldSet p.UserFields)) ∧
    (∀ p : SpacesLookupParams,
      p.ParameterMap = (str "ids", QueryValue p.IDs)
        :: setFieldEntries (optionalFields p.Expansions p.SpaceFields p.UserFields) ∧
      (∀ k, k ∈ p.ParameterMap.map Prod.fst ↔
        k = str "ids" ∨ (k = str "expansions" ∧ fieldSet p.Expansions) ∨
        (k = str "space.fields" ∧ fieldSet p.SpaceFields) ∨
        (k = str "user.fields" ∧ fieldSet p.UserFields)) ∧
      (p.IDs = none ∨ Slice.len p.IDs = 0 → p.ParameterMap.lookup (str "ids") = some [])) ∧
    (∀ p : SpacesLookupByCreatorIDsParams,
      p.ParameterMap = (str "user_ids", QueryValue p.UserIDs)
        :: setFieldEntries (optionalFields p.Expansions p.SpaceFields p.UserFields) ∧
      (∀ k, k ∈ p.ParameterMap.map Prod.fst ↔
        k = str "user_ids" ∨ (k = str "expansions" ∧ fieldSet p.Expansions) ∨
        (k = str "space.fields" ∧ fieldSet p.SpaceFields) ∨
        (k = str "user.fields" ∧ fieldSet p.UserFields)) ∧
      (p.UserIDs = none ∨ Slice.len p.UserIDs = 0 →
        p.ParameterMap.lookup (str "user_ids") = some [])) := by
  refine ⟨fun p => ⟨ParameterMap_eq_ID p, fun k => ?_⟩,
    fun p => ⟨ParameterMap_eq_Lookup p, fun k => ?_, fun h => ?_⟩,
    fun p => ⟨ParameterMap_eq_ByCreator p, fun k => ?_, fun h => ?_⟩⟩
  · rw [ParameterMap_eq_ID]
    exact mem_setFieldEntries_keys _ _ _ k
  · rw [ParameterMap_eq_Lookup, List.map_cons, List.mem_cons,
      mem_setFieldEntries_keys]
  · rw [ParameterMap_eq_Lookup, QueryValue_of_unset _ h]
    exact lookup_head _ _ _
  · rw [ParameterMap_eq_ByCreator, List.map_cons, List.mem_cons,
      mem_setFieldEntries_keys]
  · rw [ParameterMap_eq_ByCreator, QueryValue_of_unset _ h]
    exact lookup_head _ _ _

/-- Counterexample to C12: with `IDs` (resp. `UserIDs`) nil, `ParameterMap()`
holds the key `ids` (resp. `user_ids`), bound to the empty string. -/
theorem ParameterMap_lists_counterexample :
    (⟨[], none, none, none, none⟩ : SpacesLookupParams).ParameterMap = [(str "ids", [])] ∧
    (⟨[], some [], none, none, none⟩ : SpacesLookupParams).ParameterMap = [(str "ids", [])] ∧
    (⟨[], none, none, none, none⟩ : SpacesLookupByCreatorIDsParams).ParameterMap
      = [(str "user_ids", [])] := by
  decide

/-- C13: for each of the six response types, `HasPartialError()` is true if and
only if the errors collection has at least one entry, whatever the entries
hold; a nil and an empty collection give false.  The method is a function of
the response and returns a boolean only, so the response is as it was. -/
theorem HasPartialError_spec :
    (∀ r : ListFollowsFollowersResponse, r.HasPartialError = true ↔ 0 < Slice.len r.Errors) ∧
    (∀ r : ListFollowsFollowedListsResponse,
      r.HasPartialError = true ↔ 0 < Slice.len r.Errors) ∧
    (∀ r : ListMembersListMembershipsResponse,
      r.HasPartialError = true ↔ 0 < Slice.len r.Errors) ∧
    (∀ r : ListMembersGetResponse, r.HasPartialError = true ↔ 0 < Slice.len r.Errors) ∧
    (∀ r : TweetLikesLikingUsersResponse, r.HasPartialError = true ↔ 0 < Slice.len r.Errors) ∧
    (∀ r : TweetLikesLikedTweetsResponse, r.HasPartialError = true ↔ 0 < Slice.len r.Errors) ∧
    hasPartialError none = false ∧ hasPartialError (some []) = false ∧
    (∀ (x : PartialError) (xs : List PartialError), hasPartialError (some (x :: xs)) = true) := by
  have key : ∀ errs : Slice PartialError, hasPartialError errs = true ↔ 0 < Slice.len errs := by
    intro errs
    cases errs with
    | none => simp [hasPartialError, Slice.len]
    | some l =>
      cases l with
      | nil => simp [hasPartialError, Slice.len]
      | cons x xs => simp [hasPartialError, Slice.len]
  refine ⟨fun r => key _, fun r => key _, fun r => key _, fun r => key _, fun r => key _,
    fun r => key _, by decide, by decide, ?_⟩
  intro x xs
  exact (key _).2 (by simp [Slice.len])

/-- C14: `Body()` of `HideRepliesParams` returns no error and the text of a JSON
object: `{}` when `Hidden` is unset, `{"hidden":true}` or `{"hidden":false}`
when it points to a boolean, so an explicit false differs from unset; the path
parameter `ID` and the access token do not appear in it. -/
theorem HideRepliesParams.Body_spec (p : HideRepliesParams) :
    p.Body.2 = none ∧
    (p.Hidden = none → p.Body.1 = some (str "\x7b\x7d")) ∧
    (p.Hidden = some true → p.Body.1 = some (str "\x7b\"hidden\":true\x7d")) ∧
    (p.Hidden = some false → p.Body.1 = some (str "\x7b\"hidden\":false\x7d")) ∧
    str "\x7b\"hidden\":false\x7d" ≠ str "\x7b\x7d" ∧
    (∀ tok id : Str, HideRepliesParams.Body ⟨tok, id, p.Hidden⟩ = p.Body) := by
  refine ⟨?_, ?_, ?_, ?_, by decide, fun _ _ => rfl⟩
  · cases h : p.Hidden <;> simp [HideRepliesParams.Body, h]
  · intro h
    simp [HideRepliesParams.Body, h]
  · intro h
    simp only [HideRepliesParams.Body, h]
    decide
  · intro h
    simp only [HideRepliesParams.Body, h]
    decide

/-- Witness of C14: the three cases of the test. -/
theorem HideRepliesParams.Body_spec_witness :
    (HideRepliesParams.Body ⟨[], str "test-id", some false⟩).1
      = some (str "\x7b\"hidden\":false\x7d") ∧
    (HideRepliesParams.Body ⟨[], str "test-id", some true⟩).1
      = some (str "\x7b\"hidden\":true\x7d") ∧
    (HideRepliesParams.Body ⟨[], str "id", none⟩).1 = some (str "\x7b\x7d") :=
  ⟨(HideRepliesParams.Body_spec ⟨[], str "test-id", some false⟩).2.2.2.1 rfl,
   (HideRepliesParams.Body_spec ⟨[], str "test-id", some true⟩).2.2.1 rfl,
   (HideRepliesParams.Body_spec ⟨[], str "id", none⟩).2.1 rfl⟩

/-- C16: after `SetAccessToken(t)`, `AccessToken()` returns `t`, the empty
string included, and the last token set wins; every other field is as it was,
and so are the results of `ResolveEndpoint` and `ParameterMap`. -/
theorem SetAccessToken_frame (t : Str) :
    (∀ p : SpacesLookupIDParams,
      (p.SetAccessToken t).AccessToken = t ∧
      (∀ t0, ((p.SetAccessToken t0).SetAccessToken t).AccessToken = t) ∧
      p.SetAccessToken t = ⟨t, p.ID, p.Expansions, p.SpaceFields, p.UserFields⟩ ∧
      (∀ T, (p.SetAccessToken t).ResolveEndpoint T = p.ResolveEndpoint T) ∧
      (p.SetAccessToken t).ParameterMap = p.ParameterMap) ∧
    (∀ p : SpacesLookupParams,
      (p.SetAccessToken t).AccessToken = t ∧
      (∀ t0, ((p.SetAccessToken t0).SetAccessToken t).AccessToken = t) ∧
      p.SetAccessToken t = ⟨t, p.IDs, p.Expansions, p.SpaceFields, p.UserFields⟩ ∧
      (∀ T, (p.SetAccessToken t).ResolveEndpoint T = p.ResolveEndpoint T) ∧
      (p.SetAccessToken t).ParameterMap = p.ParameterMap) ∧
    (∀ p : SpacesLookupByCreatorIDsParams,
      (p.SetAccessToken t).AccessToken = t ∧
      (∀ t0, ((p.SetAccessToken t0).SetAccessToken t).AccessToken = t) ∧
      p.SetAccessToken t = ⟨t, p.UserIDs, p.Expansions, p.SpaceFields, p.UserFields⟩ ∧
      (∀ T, (p.SetAccessToken t).ResolveEndpoint T = p.ResolveEndpoint T) ∧
      (p.SetAccessToken t).ParameterMap = p.ParameterMap) ∧
    (∀ p : TweetTimelinesTweetsParams,
      (p.SetAccessToken t).AccessToken = t ∧
      (∀ t0, ((p.SetAccessToken t0).SetAccessToken t).AccessToken = t) ∧
      p.SetAccessToken t = ⟨t, p.ID, p.MaxResults, p.Exclude, p.Expansions, p.MediaFields,
        p.PlaceFields, p.PollFields, p.TweetFields, p.UserFields⟩ ∧
      (∀ T, (p.SetAccessToken t).ResolveEndpoint T = p.ResolveEndpoint T) ∧
      (p.SetAccessToken t).ParameterMap = p.ParameterMap) := by
  refine ⟨fun p => ⟨rfl, fun _ => rfl, rfl, fun _ => rfl, rfl⟩,
    fun p => ⟨rfl, fun _ => rfl, rfl, fun _ => rfl, rfl⟩,
    fun p => ⟨rfl, fun _ => rfl, rfl, fun _ => rfl, rfl⟩,
    fun p => ⟨rfl, fun _ => rfl, rfl, fun _ => rfl, rfl⟩⟩

/-- The cases of `Test_TweetTimelinesTweetsParams_ResolveEndpoint` on the model
of `TweetTimelinesTweetsParams`. -/
theorem TweetTimelinesTweetsParams_test_cases :
    (⟨[], str "test-id", 0, none, none, none, none, none, none, none⟩ :
      TweetTimelinesTweetsParams).ResolveEndpoint (str "test/endpoint/:id")
      = str "test/endpoint/test-id" ∧
    (⟨[], str "test-id", 0, some [str "exc1", str "exc2"], none, none, none, none, none, none⟩ :
      TweetTimelinesTweetsParams).ResolveEndpoint (str "test/endpoint/:id")
      = str "test/endpoint/test-id?exclude=exc1%2Cexc2" ∧
    (⟨[], str "test-id", 50, none, none, none, none, none, none, none⟩ :
      TweetTimelinesTweetsParams).ResolveEndpoint (str "test/endpoint/:id")
      = str "test/endpoint/test-id?max_results=50" ∧
    (⟨[], str "test-id", 50, some [str "exc"], some [str "ex"], some [str "mf"], some [str "plf"],
      some [str "pof"], some [str "tf"], some [str "uf"]⟩ :
      TweetTimelinesTweetsParams).ResolveEndpoint (str "test/endpoint/:id")
      = str ("test/endpoint/test-id?exclude=exc&expansions=ex&max_results=50&media.fields=mf"
          ++ "&place.fields=plf&poll.fields=pof&tweet.fields=tf&user.fields=uf") ∧
    (⟨[], [], 0, none, some [str "ex"], none, none, none, some [str "tf"], some [str "uf"]⟩ :
      TweetTimelinesTweetsParams).ResolveEndpoint (str "test/endpoint/:id") = [] := by
  decide

theorem wellEscaped_iff (s : Str) :
    wellEscaped s = true ↔
      ∀ i, i < s.length → s.getD i 0 = bPercent →
        i + 2 < s.length ∧ ishex (s.getD (i + 1) 0) = true ∧ ishex (s.getD (i + 2) 0) = true := by
  simp only [wellEscaped, List.all_eq_true, List.mem_range, Bool.or_eq_true, Bool.and_eq_true,
    decide_eq_true_eq, bne_iff_ne, ne_eq]
  constructor
  · intro h i hi hp
    rcases h i hi with h1 | h1
    · exact absurd hp h1
    · exact ⟨h1.1.1, h1.1.2, h1.2⟩
  · intro h i hi
    by_cases hp : s.getD i 0 = bPercent
    · obtain ⟨h1, h2, h3⟩ := h i hi hp
      exact Or.inr ⟨⟨h1, h2⟩, h3⟩
    · exact Or.inl hp

/-- The escaping of `c :: cs` is valid when `c`, if it is a `%`, is followed by
two hex digits, and the escaping of `cs` is valid. -/
theorem wellEscaped_cons (c : Byte) (cs : Str) :
    wellEscaped (c :: cs) = true ↔
      (c = bPercent → ∃ h1 h2 rest, cs = h1 :: h2 :: rest ∧ ishex h1 = true ∧ ishex h2 = true) ∧
      wellEscaped cs = true := by
  rw [wellEscaped_iff, wellEscaped_iff]
  constructor
  · intro h
    constructor
    · intro hc
      have h0 := h 0 (by simp) (by simpa using hc)
      obtain ⟨hl, hx1, hx2⟩ := h0
      match cs, hl, hx1, hx2 with
      | h1 :: h2 :: rest, _, hx1, hx2 =>
        exact ⟨h1, h2, rest, rfl, by simpa using hx1, by simpa using hx2⟩
      | [_], hl, _, _ => simp at hl
      | [], hl, _, _ => simp at hl
    · intro i hi hp
      have := h (i + 1) (by simp; omega) (by simpa using hp)
      simp only [List.length_cons] at this
      refine ⟨by omega, ?_, ?_⟩
      · simpa using this.2.1
      · simpa using this.2.2
  · rintro ⟨h0, hcs⟩ i hi hp
    cases i with
    | zero =>
      have hc : c = bPercent := by simpa using hp
      obtain ⟨h1, h2, rest, rfl, hx1, hx2⟩ := h0 hc
      exact ⟨by simp, by simpa using hx1, by simpa using hx2⟩
    | succ j =>
      have hj : j < cs.length := by simpa using hi
      have := hcs j hj (by simpa using hp)
      simp only [List.length_cons]
      refine ⟨by omega, ?_, ?_⟩
      · simpa using this.2.1
      · simpa using this.2.2

theorem ishex_ne_percent : ∀ c : Byte, ishex c = true → c ≠ bPercent := by decide

theorem queryUnescape_plain (c : Byte) (cs : Str) (hc : c ≠ bPercent) :
    (∃ t, queryUnescape (c :: cs) = .ok t) ↔ ∃ t, queryUnescape cs = .ok t := by
  rw [queryUnescape.eq_def]
  simp only [if_neg hc]
  cases queryUnescape cs with
  | error err => simp
  | ok t => simp

theorem queryUnescape_hex (h1 h2 : Byte) (rest : Str) (hx1 : ishex h1 = true)
    (hx2 : ishex h2 = true) :
    (∃ t, queryUnescape (bPercent :: h1 :: h2 :: rest) = .ok t)
      ↔ ∃ t, queryUnescape rest = .ok t := by
  rw [queryUnescape.eq_def]
  simp only [if_true, hx1, hx2, and_self]
  cases queryUnescape rest with
  | error err => simp
  | ok t => simp

theorem queryUnescape_bad (cs : Str)
    (h : ¬ ∃ h1 h2 rest, cs = h1 :: h2 :: rest ∧ ishex h1 = true ∧ ishex h2 = true) :
    ¬ ∃ t, queryUnescape (bPercent :: cs) = .ok t := by
  match cs, h with
  | [], _ =>
    rw [queryUnescape.eq_def]
    simp
  | [_], _ =>
    rw [queryUnescape.eq_def]
    simp
  | h1 :: h2 :: rest, h =>
    have hn : ¬ (ishex h1 = true ∧ ishex h2 = true) := fun hh => h ⟨h1, h2, rest, rfl, hh.1, hh.2⟩
    rw [queryUnescape.eq_def]
    simp only [if_true, if_neg hn]
    simp

theorem queryUnescape_ok_iff_aux (n : Nat) :
    ∀ s : Str, s.length ≤ n → ((∃ t, queryUnescape s = .ok t) ↔ wellEscaped s = true) := by
  induction n with
  | zero =>
    intro s hs
    have : s = [] := List.length_eq_zero.1 (by omega)
    subst this
    simp [queryUnescape, wellEscaped]
  | succ m ih =>
    intro s hs
    cases s with
    | nil => simp [queryUnescape, wellEscaped]
    | cons c cs =>
      have hcs : cs.length ≤ m := by simpa using hs
      rw [wellEscaped_cons]
      by_cases hc : c = bPercent
      · subst hc
        by_cases hgood : ∃ h1 h2 rest, cs = h1 :: h2 :: rest ∧ ishex h1 = true ∧ ishex h2 = true
        · obtain ⟨h1, h2, rest, rfl, hx1, hx2⟩ := hgood
          have hrest : rest.length ≤ m := by
            simp only [List.length_cons] at hcs
            omega
          rw [queryUnescape_hex h1 h2 rest hx1 hx2, ih rest hrest, wellEscaped_cons,
            wellEscaped_cons]
          constructor
          · intro hw
            exact ⟨fun _ => ⟨h1, h2, rest, rfl, hx1, hx2⟩,
              fun hp => absurd hp (ishex_ne_percent h1 hx1),
              fun hp => absurd hp (ishex_ne_percent h2 hx2), hw⟩
          · intro hw
            exact hw.2.2.2
        · constructor
          · intro hok
            exact absurd hok (queryUnescape_bad cs hgood)
          · intro hw
            exact absurd (hw.1 rfl) hgood
      · rw [queryUnescape_plain c cs hc, ih cs hcs]
        constructor
        · intro hw
          exact ⟨fun hp => absurd hp hc, hw⟩
        · intro hw
          exact hw.2

/-- `url.QueryUnescape` succeeds exactly on a valid escaping: every `%` followed
by two hex digits. -/
theorem queryUnescape_ok_iff (s : Str) :
    (∃ t, queryUnescape s = .ok t) ↔ wellEscaped s = true :=
  queryUnescape_ok_iff_aux s.length s (Nat.le_refl _)

theorem queryUnescape_error_iff (s : Str) :
    (∃ err, queryUnescape s = .error err) ↔ wellEscaped s = false := by
  have h := queryUnescape_ok_iff s
  cases hq : queryUnescape s with
  | error err =>
    rw [hq] at h
    have : ¬ wellEscaped s = true := fun hw => by
      obtain ⟨t, ht⟩ := h.2 hw
      cases ht
    simp [this]
  | ok t =>
    rw [hq] at h
    have : wellEscaped s = true := h.1 ⟨t, rfl⟩
    simp [this]

/-- A pair `k=v` with one `=` fails exactly when the escaping of `v` is not
valid, whatever the key. -/
theorem detailPair_error_iff (k v : Str) (hk : bEq ∉ k) (hv : bEq ∉ v) :
    (∃ err, detailPair (k ++ bEq :: v) = .error err) ↔ wellEscaped v = false := by
  rw [detailPair_one_eq k v hk hv, ← queryUnescape_error_iff]
  cases queryUnescape v with
  | error err => simp
  | ok t => simp

/-- A pair that fails has exactly one `=`, and the escaping of its value is not
valid. -/
theorem detailPair_error_shape (q : Str) (err : Error) (h : detailPair q = .error err) :
    ∃ k v, q = k ++ bEq :: v ∧ bEq ∉ k ∧ bEq ∉ v ∧ wellEscaped v = false := by
  rcases cut_at bEq q with hq | ⟨x, y, hxy, hx⟩
  · rw [detailPair_no_eq q hq] at h
    cases h
  · by_cases hy : bEq ∈ y
    · have hc : 2 ≤ q.count bEq := by
        rw [hxy, List.count_append, List.count_cons_self]
        have := List.count_pos_iff.2 hy
        omega
      rw [detailPair_many_eq q hc] at h
      cases h
    · refine ⟨x, y, hxy, hx, hy, ?_⟩
      exact (detailPair_error_iff x y hx hy).1 ⟨err, hxy ▸ h⟩

theorem detailPair_ok_of_count (q : Str) (h : q.count bEq ≠ 1) :
    ∃ kv, detailPair q = .ok kv := by
  cases hq : detailPair q with
  | ok kv => exact ⟨kv, rfl⟩
  | error err =>
    exfalso
    obtain ⟨k, v, hkv, hk, hv, -⟩ := detailPair_error_shape q err hq
    apply h
    rw [hkv, List.count_append, List.count_cons_self, List.count_eq_zero_of_not_mem hk,
      List.count_eq_zero_of_not_mem hv]

/-- C21: `Endpoint.Detail` returns an error if and only if the endpoint holds a
`?` and one of the pairs of its query, cut at `&`, is `k=v` with exactly one
`=` and a value `v` whose escaping is not valid, a `%` of it not being followed
by two hex digits; the info returned with an error is nil; a pair `k=v` fails
or not by its value alone, whatever its key, and a pair with no `=` or with
several never fails. -/
theorem Detail_fails_iff (e : Str) :
    ((∃ err, (Endpoint.Detail e).2 = some err) ↔
      bQuestion ∈ e ∧
      ∃ k v, k ++ bEq :: v ∈ queryPairs e ∧ bEq ∉ k ∧ bEq ∉ v ∧ wellEscaped v = false) ∧
    ((Endpoint.Detail e).2 ≠ none → (Endpoint.Detail e).1 = none) ∧
    (∀ k v, bEq ∉ k → bEq ∉ v →
      ((∃ err, detailPair (k ++ bEq :: v) = .error err) ↔ wellEscaped v = false)) ∧
    (∀ q, q.count bEq ≠ 1 → ∃ kv, detailPair q = .ok kv) := by
  refine ⟨⟨?_, ?_⟩, ?_, detailPair_error_iff, detailPair_ok_of_count⟩
  · rintro ⟨err, h⟩
    by_cases hq : bQuestion ∈ e
    · obtain ⟨q, hmem, hpair⟩ := Detail_error e hq err h
      obtain ⟨k, v, hkv, hk, hv, hw⟩ := detailPair_error_shape q err hpair
      exact ⟨hq, k, v, hkv ▸ hmem, hk, hv, hw⟩
    · rw [Detail_of_not_mem e hq] at h
      cases h
  · rintro ⟨hq, k, v, hmem, hk, hv, hw⟩
    obtain ⟨err, hpair⟩ := (detailPair_error_iff k v hk hv).2 hw
    obtain ⟨e1, hloop⟩ := detailLoop_fails (queryPairs e) [] _ err hmem hpair
    rw [Detail_of_mem e hq, hloop]
    exact ⟨e1, rfl⟩
  · intro h
    by_cases hq : bQuestion ∈ e
    · rw [Detail_of_mem e hq] at h ⊢
      cases hl : detailLoop (queryPairs e) [] with
      | error err => rfl
      | ok m =>
        rw [hl] at h
        exact absurd rfl h
    · rw [Detail_of_not_mem e hq] at h
      exact absurd rfl h

/-- Witness of C21: the value `%4` of `y` makes `Endpoint.Detail` fail with a nil
info; the key `%zz` does not. -/
theorem Detail_fails_iff_witness :
    (∃ err, (Endpoint.Detail (str "https://a/b?x=1&y=%4")).2 = some err) ∧
    (Endpoint.Detail (str "https://a/b?x=1&y=%4")).1 = none ∧
    Endpoint.Detail (str "https://a/b?%zz=1")
      = (some ⟨str "https://a/b?%zz=1", str "https://a/b", [(str "%zz", str "1")]⟩, none) :=
  ⟨(Detail_fails_iff (str "https://a/b?x=1&y=%4")).1.2
      ⟨by decide, str "y", str "%4", by decide, by decide, by decide, by decide⟩,
   (Detail_fails_iff (str "https://a/b?x=1&y=%4")).2.1 (by decide),
   by decide⟩

theorem escapeByte_shape_all : ∀ c : Byte, (escapeByte c).all (fun x =>
    x != bSlash && x != bQuestion && x != bHash && x != bAmp && x != bEq && x != bSpace)
      = true := by
  decide

theorem escapeByte_shape (c x : Byte) (hx : x ∈ escapeByte c) :
    x ≠ bSlash ∧ x ≠ bQuestion ∧ x ≠ bHash ∧ x ≠ bAmp ∧ x ≠ bEq ∧ x ≠ bSpace := by
  have h := List.all_eq_true.1 (escapeByte_shape_all c) x hx
  simp only [Bool.and_eq_true, bne_iff_ne, ne_eq] at h
  exact ⟨h.1.1.1.1.1, h.1.1.1.1.2, h.1.1.1.2, h.1.1.2, h.1.2, h.2⟩

theorem queryEscape_shape (s : Str) : ∀ x ∈ queryEscape s,
    x ≠ bSlash ∧ x ≠ bQuestion ∧ x ≠ bHash ∧ x ≠ bAmp ∧ x ≠ bEq ∧ x ≠ bSpace := by
  intro x hx
  obtain ⟨c, -, hc⟩ := mem_queryEscape.1 hx
  exact escapeByte_shape c x hc

theorem append_of_isPrefixOf (old s : Str) (h : old.isPrefixOf s = true) :
    ∃ post, s = old ++ post := by
  induction old generalizing s with
  | nil => exact ⟨s, rfl⟩
  | cons a rest ih =>
    cases s with
    | nil => simp [List.isPrefixOf] at h
    | cons b t =>
      simp only [List.isPrefixOf, Bool.and_eq_true, beq_iff_eq] at h
      obtain ⟨post, hpost⟩ := ih t h.2
      exact ⟨post, by rw [h.1, hpost]; rfl⟩

/-- A string holds no instance of `old`, or it has a first one. -/
theorem first_instance (old : Str) (hold : old ≠ []) (s : Str) :
    (∀ i, old.isPrefixOf (s.drop i) = false) ∨
    ∃ pre post, s = pre ++ old ++ post ∧
      ∀ i, i < pre.length → old.isPrefixOf (s.drop i) = false := by
  induction s with
  | nil =>
    left
    intro i
    cases old with
    | nil => exact absurd rfl hold
    | cons a rest => simp [List.isPrefixOf]
  | cons c cs ih =>
    by_cases h0 : old.isPrefixOf (c :: cs) = true
    · obtain ⟨post, hpost⟩ := append_of_isPrefixOf old (c :: cs) h0
      exact Or.inr ⟨[], post, by simpa using hpost, by simp⟩
    · have h0f : old.isPrefixOf (c :: cs) = false := (Bool.not_eq_true _).mp h0
      rcases ih with hnone | ⟨pre, post, hs, hfirst⟩
      · left
        intro i
        cases i with
        | zero => exact h0f
        | succ j => exact hnone j
      · right
        refine ⟨c :: pre, post, by simp [hs], ?_⟩
        intro i hi
        cases i with
        | zero => exact h0f
        | succ j => exact hfirst j (by simpa using hi)

/-- With no field list set and a non-empty `ID`, `ResolveEndpoint` is the one
replacement of `:id`. -/
theorem ResolveEndpoint_no_fields (p : SpacesLookupIDParams) (T : Str) (hid : p.ID ≠ [])
    (hno : ¬ fieldSet p.Expansions ∧ ¬ fieldSet p.SpaceFields ∧ ¬ fieldSet p.UserFields) :
    p.ResolveEndpoint T = stringsReplace T (str ":id") (queryEscape p.ID) 1 := by
  simp only [SpacesLookupIDParams.ResolveEndpoint, if_neg hid]
  rw [ParameterMap_eq_ID, (setFieldEntries_eq_nil _ _ _).2 hno]
  simp [QueryString, Values.Encode]

/-- C22: for a non-empty `ID` and no field list set, the text put in the place
of `:id` holds none of `/`, `?`, `#`, `&`, `=` and space; the first `:id` of
the template is replaced and what follows it is left as it is; the result has
as many `?` as the template; a template without `:id` is returned unchanged. -/
theorem SpacesLookupIDParams.ResolveEndpoint_shape (p : SpacesLookupIDParams) (T : Str)
    (hid : p.ID ≠ [])
    (hno : ¬ fieldSet p.Expansions ∧ ¬ fieldSet p.SpaceFields ∧ ¬ fieldSet p.UserFields) :
    (∀ x ∈ queryEscape p.ID,
      x ≠ bSlash ∧ x ≠ bQuestion ∧ x ≠ bHash ∧ x ≠ bAmp ∧ x ≠ bEq ∧ x ≠ bSpace) ∧
    (∀ pre post, T = pre ++ str ":id" ++ post →
      (∀ i, i < pre.length → (str ":id").isPrefixOf (T.drop i) = false) →
      p.ResolveEndpoint T = pre ++ queryEscape p.ID ++ post) ∧
    (p.ResolveEndpoint T).count bQuestion = T.count bQuestion ∧
    ((∀ i, (str ":id").isPrefixOf (T.drop i) = false) → p.ResolveEndpoint T = T) := by
  have hres := ResolveEndpoint_no_fields p T hid hno
  have hq : (queryEscape p.ID).count bQuestion = 0 :=
    List.count_eq_zero_of_not_mem fun hm => (queryEscape_shape p.ID _ hm).2.1 rfl
  have hfirst : ∀ pre post, T = pre ++ str ":id" ++ post →
      (∀ i, i < pre.length → (str ":id").isPrefixOf (T.drop i) = false) →
      p.ResolveEndpoint T = pre ++ queryEscape p.ID ++ post := by
    intro pre post hT hf
    rw [hres]
    subst hT
    exact stringsReplace_first _ _ pre post (by decide) hf
  have hnone : (∀ i, (str ":id").isPrefixOf (T.drop i) = false) → p.ResolveEndpoint T = T := by
    intro h
    rw [hres]
    exact stringsReplace_none _ _ T 1 h
  refine ⟨queryEscape_shape p.ID, hfirst, ?_, hnone⟩
  rcases first_instance (str ":id") (by decide) T with h | ⟨pre, post, hT, hf⟩
  · rw [hnone h]
  · rw [hfirst pre post hT hf]
    have hid0 : (str ":id").count bQuestion = 0 := by decide
    rw [hT]
    simp only [List.count_append, hq, hid0]

/-- Witness of C22: the `ID` `4 2/?` in a template with two `:id` and a `?`. -/
theorem SpacesLookupIDParams.ResolveEndpoint_shape_witness :
    (⟨[], str "4 2/?", none, none, none⟩ : SpacesLookupIDParams).ResolveEndpoint
        (str "https://a/" ++ str ":id" ++ str "/x:id?y")
      = str "https://a/" ++ queryEscape (str "4 2/?") ++ str "/x:id?y" ∧
    queryEscape (str "4 2/?") = str "4+2%2F%3F" ∧
    ((⟨[], str "4 2/?", none, none, none⟩ : SpacesLookupIDParams).ResolveEndpoint
        (str "https://a/" ++ str ":id" ++ str "/x:id?y")).count bQuestion = 1 :=
  ⟨(SpacesLookupIDParams.ResolveEndpoint_shape
      (⟨[], str "4 2/?", none, none, none⟩ : SpacesLookupIDParams)
      (str "https://a/" ++ str ":id" ++ str "/x:id?y") (by decide) (by decide)).2.1
      (str "https://a/") (str "/x:id?y") rfl (by decide),
   by decide, by decide⟩

end Gotwi
